import Mathlib

/-!
Shallow embedding of the `once-human-ai` RAG pipeline core, translated from
`rag_pipeline/sync_db.py` and `rag_pipeline/rag_service.py`.

Modelling conventions:
* ChromaDB metadata values are scalars (string / bool / int); list values are
  only ever supplied by callers of `/add` and are `"; "`-joined at the storage
  boundary.  `MVal` covers exactly these shapes.
* A store (one ChromaDB collection behind the HTTP surface) is a `List Doc`
  in insertion order; `collection.get` returns all of it, `collection.add`
  appends, and `collection.delete(ids=[i])` removes every document whose id
  is `i` and silently succeeds when there is none (ChromaDB semantics).
* Python dicts are association lists with in-place overwrite on key reuse,
  preserving first-insertion position (`dictInsert` / `mdSet`).
* `datetime.fromisoformat` (CPython <= 3.10 grammar, the grammar the code's
  manual `Z` handling targets) is embedded as a parser to a UTC instant in
  microseconds.  Naive datetimes are compared on the same axis as aware ones.
* HTTP call outcomes of the sync client are an oracle `httpOk : Nat -> Bool`
  indexed by the call counter; on a failed call the remote store is unchanged.
  Fresh uuid4 ids are an oracle `gen : Nat -> String`.
-/

/-- A ChromaDB-compatible metadata value: scalar at rest, list only as
`/add`-input before `"; "`-joining. -/
inductive MVal where
  | s (v : String)
  | b (v : Bool)
  | i (v : Int)
  | lst (vs : List String)
deriving DecidableEq, Repr

/-- Metadata: a Python dict from string keys to values, as an assoc list in
insertion order with unique keys. -/
abbrev Metadata := List (String × MVal)

/-- `dict.get(k)`: first (unique) binding of `k`. -/
def mdGet (md : Metadata) (k : String) : Option MVal :=
  match md with
  | [] => none
  | p :: rest => if p.1 = k then some p.2 else mdGet rest k

/-- `dict[k] = v`: overwrite in place when present, append when absent. -/
def mdSet (md : Metadata) (k : String) (v : MVal) : Metadata :=
  if md.any (fun p => p.1 = k) then
    md.map (fun p => if p.1 = k then (k, v) else p)
  else md ++ [(k, v)]

/-- One document of a store: `id`, `document` text, `metadata`
(`rag_service.py` `/documents` shape). -/
structure Doc where
  id : String
  text : String
  metadata : Metadata
deriving DecidableEq, Repr

/-- The composite key `sync_db.py` builds its maps with:
`(doc['metadata']['source'], doc['metadata'].get('page_number'))`. -/
abbrev Key := Option MVal × Option MVal

/-- `sync_db.py` lines 96-103: the per-document map key. -/
def docKey (d : Doc) : Key :=
  (mdGet d.metadata "source", mdGet d.metadata "page_number")

/-! ### `datetime.fromisoformat` (CPython <= 3.10 grammar) -/

def digitsVal (cs : List Char) : Nat :=
  cs.foldl (fun a c => a * 10 + (c.toNat - 48)) 0

def allDigits (cs : List Char) : Bool :=
  cs.all Char.isDigit

def isLeapYear (y : Nat) : Bool :=
  y % 4 == 0 && (y % 100 != 0 || y % 400 == 0)

def daysInMonth (y m : Nat) : Nat :=
  if m = 2 then (if isLeapYear y then 29 else 28)
  else if m = 4 ∨ m = 6 ∨ m = 9 ∨ m = 11 then 30
  else 31

/-- Days since 1970-01-01 of a proleptic-Gregorian date (valid for `y ≥ 1`;
Hinnant's civil-calendar algorithm, all intermediate values non-negative). -/
def daysFromCivil (y m d : Nat) : Int :=
  let y' : Int := if m ≤ 2 then (y : Int) - 1 else (y : Int)
  let era : Int := y' / 400
  let yoe : Int := y' - era * 400
  let mp : Int := ((m : Int) + 9) % 12
  let doy : Int := (153 * mp + 2) / 5 + (d : Int) - 1
  let doe : Int := yoe * 365 + yoe / 4 - yoe / 100 + doy
  era * 146097 + doe - 719468

/-- Two ASCII digits to a number. -/
def parseTwo (a b : Char) : Option Nat :=
  if a.isDigit && b.isDigit then some ((a.toNat - 48) * 10 + (b.toNat - 48))
  else none

/-- Fractional seconds: exactly 3 or 6 digits, as microseconds. -/
def parseFraction (cs : List Char) : Option Nat :=
  if cs.length = 3 && allDigits cs then some (digitsVal cs * 1000)
  else if cs.length = 6 && allDigits cs then some (digitsVal cs)
  else none

/-- `HH[:MM[:SS[.fff[fff]]]]` to `(hour, minute, second, microsecond)`. -/
def parseTime : List Char → Option (Nat × Nat × Nat × Nat)
  | [h1, h2] =>
    (parseTwo h1 h2).bind fun h =>
      if h < 24 then some (h, 0, 0, 0) else none
  | [h1, h2, ':', m1, m2] =>
    (parseTwo h1 h2).bind fun h =>
      (parseTwo m1 m2).bind fun m =>
        if h < 24 ∧ m < 60 then some (h, m, 0, 0) else none
  | h1 :: h2 :: ':' :: m1 :: m2 :: ':' :: s1 :: s2 :: rest =>
    (parseTwo h1 h2).bind fun h =>
      (parseTwo m1 m2).bind fun m =>
        (parseTwo s1 s2).bind fun s =>
          if h < 24 ∧ m < 60 ∧ s < 60 then
            match rest with
            | [] => some (h, m, s, 0)
            | '.' :: frac => (parseFraction frac).map fun f => (h, m, s, f)
            | _ => none
          else none
  | _ => none

/-- Split the time substring at the first `+`/`-` (the UTC-offset sign);
returns the time chars and, when a sign is present, its sign and the chars
after it.  `true` means `+`. -/
def splitOffset : List Char → List Char × Option (Bool × List Char)
  | [] => ([], none)
  | c :: rest =>
    if c = '+' then ([], some (true, rest))
    else if c = '-' then ([], some (false, rest))
    else
      let (t, o) := splitOffset rest
      (c :: t, o)

/-- `±HH:MM[:SS]` offset body to seconds. -/
def parseOffset : List Char → Option Nat
  | [h1, h2, ':', m1, m2] =>
    (parseTwo h1 h2).bind fun h =>
      (parseTwo m1 m2).bind fun m =>
        if h < 24 ∧ m < 60 then some (h * 3600 + m * 60) else none
  | [h1, h2, ':', m1, m2, ':', s1, s2] =>
    (parseTwo h1 h2).bind fun h =>
      (parseTwo m1 m2).bind fun m =>
        (parseTwo s1 s2).bind fun s =>
          if h < 24 ∧ m < 60 ∧ s < 60 then some (h * 3600 + m * 60 + s)
          else none
  | _ => none

/-- UTC instant in microseconds of a civil date-time. -/
def civilMicros (y mo d h mi s micro : Nat) : Int :=
  (daysFromCivil y mo d * 86400 + (h : Int) * 3600 + (mi : Int) * 60 + (s : Int))
    * 1000000 + (micro : Int)

/-- `datetime.fromisoformat` (<= 3.10): `YYYY-MM-DD[<sep>HH[:MM[:SS[.f]]][±HH:MM[:SS]]]`,
any single separator character, returning the instant in microseconds with
the offset applied (naive datetimes sit on the same axis at offset 0). -/
def fromisoformat (str : String) : Option Int :=
  match str.toList with
  | y1 :: y2 :: y3 :: y4 :: '-' :: mo1 :: mo2 :: '-' :: d1 :: d2 :: rest =>
    if allDigits [y1, y2, y3, y4] && allDigits [mo1, mo2] && allDigits [d1, d2] then
      let y := digitsVal [y1, y2, y3, y4]
      let mo := digitsVal [mo1, mo2]
      let d := digitsVal [d1, d2]
      if 1 ≤ y ∧ 1 ≤ mo ∧ mo ≤ 12 ∧ 1 ≤ d ∧ d ≤ daysInMonth y mo then
        match rest with
        | [] => some (civilMicros y mo d 0 0 0 0)
        | _sep :: timeCs =>
          let (tcs, ocs) := splitOffset timeCs
          (parseTime tcs).bind fun (h, mi, s, micro) =>
            match ocs with
            | none => some (civilMicros y mo d h mi s micro)
            | some (pos, oc) =>
              (parseOffset oc).map fun off =>
                civilMicros y mo d h mi s micro
                  - (if pos then (off : Int) else -(off : Int)) * 1000000
      else none
    else none
  | _ => none

/-- Python's `str.endswith(suffix)` on the character sequence (the core
`String.endsWith` is opaque to kernel reduction). -/
def strEndsWith (s suffix : String) : Bool :=
  let sl := s.toList
  let tl := suffix.toList
  decide (tl.length ≤ sl.length ∧ sl.drop (sl.length - tl.length) = tl)

/-- `sync_db.py` `get_timestamp`: read `metadata['updated_at']`, return `None`
when missing or falsy, rewrite a trailing `Z` to `+00:00`, then parse with
`fromisoformat` and return `None` on a parse error.  (A non-string value
would crash the original with an uncaught `AttributeError`; such values do
not occur in a ChromaDB listing and are mapped to `none`.) -/
def get_timestamp (d : Doc) : Option Int :=
  match mdGet d.metadata "updated_at" with
  | some (MVal.s ts) =>
    if ts = "" then none
    else
      let ts' := if strEndsWith ts "Z" then ts.dropRight 1 ++ "+00:00" else ts
      fromisoformat ts'
  | _ => none

/-- The two possible actions on a key present in both maps
(`sync_db.py` lines 130-154). -/
inductive SyncAction where
  | update
  | skip
deriving DecidableEq, Repr

/-- `sync_db.py` lines 131-154: the timestamp decision.  Local strictly newer,
or only local parseable, wins; remote newer, ties, and a missing/unparseable
local timestamp keep the remote copy. -/
def syncDecision (localTs remoteTs : Option Int) : SyncAction :=
  match localTs, remoteTs with
  | some l, some r => if l > r then SyncAction.update else SyncAction.skip
  | some _, none => SyncAction.update
  | none, _ => SyncAction.skip

/-! ### The remote store's HTTP surface (`rag_service.py`) -/

/-- `'; '.join(value)` for a list-valued metadata field. -/
def joinSemi (vs : List String) : String :=
  String.intercalate "; " vs

/-- `rag_service.py` `/add` lines 346-353: join list values with `"; "`,
leave scalars untouched.  (`dict` values are JSON-encoded there; dicts do not
occur in this model's value type.) -/
def processMetadata (md : Metadata) : Metadata :=
  md.map (fun p =>
    match p.2 with
    | MVal.lst vs => (p.1, MVal.s (joinSemi vs))
    | v => (p.1, v))

/-- `rag_service.py` `/add` lines 346-356: the metadata actually stored —
list values joined, then `processed_metadata['verified'] = True`. -/
def addProcess (md : Metadata) : Metadata :=
  mdSet (processMetadata md) "verified" (MVal.b true)

/-- The document the remote `/add` endpoint stores for payload `d` under the
freshly generated id. -/
def mkRemoteDoc (newId : String) (d : Doc) : Doc :=
  { id := newId, text := d.text, metadata := addProcess d.metadata }

/-- Response of `/add` (`rag_service.py` lines 331-375). -/
inductive AddResp where
  | ok (id : String)
  | badRequest
deriving DecidableEq, Repr

/-- `rag_service.py` `add_to_database`: reject a falsy document or metadata
with HTTP 400, otherwise store the processed document under a fresh id
(always flagged `verified`) and answer success. -/
def add_to_database (st : List Doc) (newId : String) (document : String)
    (metadata : Metadata) : AddResp × List Doc :=
  if document = "" ∨ metadata = [] then (AddResp.badRequest, st)
  else (AddResp.ok newId, st ++ [mkRemoteDoc newId ⟨newId, document, metadata⟩])

/-- Response of `/delete` (`rag_service.py` lines 491-513). -/
inductive DeleteResp where
  | ok (id : String)
  | badRequest
deriving DecidableEq, Repr

/-- `collection.delete(ids=[i])`: ChromaDB removes every document whose id is
`i` and does not raise when none exists. -/
def removeId (docs : List Doc) (i : String) : List Doc :=
  match docs with
  | [] => []
  | d :: rest => if d.id = i then removeId rest i else d :: removeId rest i

/-- `rag_service.py` `delete_from_database`: a missing/falsy id is HTTP 400;
otherwise `collection.delete` runs and the endpoint answers success whether or
not the id existed. -/
def delete_from_database (st : List Doc) (reqId : Option String) :
    DeleteResp × List Doc :=
  match reqId with
  | none => (DeleteResp.badRequest, st)
  | some i =>
    if i = "" then (DeleteResp.badRequest, st)
    else (DeleteResp.ok i, removeId st i)

/-! ### Two-phase retrieval (`rag_service.py` `query_database`) -/

/-- One ranked hit as ChromaDB returns it: parallel id / document / metadata /
distance entries, zipped. -/
structure QueryHit where
  id : String
  document : String
  metadata : Metadata
  distance : ℚ
deriving DecidableEq, Repr

/-- The metadata fields holding `"; "`-joined lists
(`rag_service.py` lines 300-302). -/
def listFields : List String :=
  ["effects", "keywords", "stats_percentages", "stats_numbers",
   "stats_durations", "entities_weapons", "entities_armor_sets",
   "entities_key_gear", "entities_weapon_mods", "entities_armor_mods"]

/-- `rag_service.py` lines 305-309: split a truthy (non-empty) string value of
a list field back into a list; everything else passes through. -/
def processResultValue (k : String) (v : MVal) : MVal :=
  if k ∈ listFields then
    match v with
    | MVal.s str => if str = "" then MVal.s str else MVal.lst (str.splitOn "; ")
    | _ => v
  else v

/-- A formatted result row of `/query` (`rag_service.py` lines 311-316). -/
structure FormattedHit where
  id : String
  document : String
  metadata : Metadata
  distance : ℚ
deriving DecidableEq, Repr

/-- `rag_service.py` lines 294-316: the response formatting applied to
whichever result set won. -/
def formatResults (r : List QueryHit) : List FormattedHit :=
  r.map (fun h =>
    { id := h.id, document := h.document,
      metadata := h.metadata.map (fun p => (p.1, processResultValue p.1 p.2)),
      distance := h.distance })

/-- `rag_service.py` `query_database` lines 270-292, abstracted over the two
store queries: the filtered (`where={"verified": True}`) query may fail, and
its failure is swallowed; the result set is kept only when non-empty with top
distance `< 0.5`; otherwise the unfiltered query answers (and only its
failure surfaces as the 500 error of the outer handler). -/
def query_database (filtered unfiltered : Except String (List QueryHit)) :
    Except String (List FormattedHit) :=
  let verified : Option (List QueryHit) :=
    match filtered with
    | Except.error _ => none
    | Except.ok r =>
      match r with
      | [] => none
      | h :: _ => if h.distance < 1/2 then some r else none
  match verified with
  | some r => Except.ok (formatResults r)
  | none => Except.map formatResults unfiltered

/-! ### Backup restore (`rag_service.py` `restore_database`) -/

/-- Content of the uploaded `backup_file`: a well-formed zip archive carrying
a directory image, or bytes `shutil.unpack_archive` rejects. -/
inductive FileContent where
  | archive (files : List (String × String))
  | invalid
deriving DecidableEq, Repr

/-- The multipart upload: its `filename` and its content. -/
structure UploadedFile where
  filename : String
  content : FileContent
deriving DecidableEq, Repr

/-- Outcome of `/restore`: HTTP status, success flag, and whether the live
client/collection handle was re-created. -/
structure RestoreResp where
  status : Nat
  success : Bool
  reloaded : Bool
deriving DecidableEq, Repr

/-- `rag_service.py` `restore_database` lines 587-640 over the persisted
directory (a file map).  Only the *filename* is validated (`endswith('.zip')`);
on a `.zip` name the directory is cleared (`rmtree` + `makedirs`) before
`unpack_archive` runs, so invalid archive bytes leave the cleared directory
behind and surface as the outer handler's HTTP 500. -/
def restore_database (req : Option UploadedFile) (dir : List (String × String)) :
    RestoreResp × List (String × String) :=
  match req with
  | none => ({ status := 400, success := false, reloaded := false }, dir)
  | some f =>
    if f.filename = "" then
      ({ status := 400, success := false, reloaded := false }, dir)
    else if strEndsWith f.filename ".zip" then
      match f.content with
      | FileContent.archive files =>
        ({ status := 200, success := true, reloaded := true }, files)
      | FileContent.invalid =>
        ({ status := 500, success := false, reloaded := false }, [])
    else
      ({ status := 400, success := false, reloaded := false }, dir)

/-! ### The push reconciliation (`sync_db.py` `push_to_remote`) -/

/-- The running state of one push: the remote store, the six counters, the
HTTP-call counter and the fresh-id counter. -/
structure PushState where
  remote : List Doc
  added : Nat
  updated : Nat
  skipped : Nat
  deleted : Nat
  failed : Nat
  calls : Nat
  fresh : Nat
deriving DecidableEq, Repr

/-- The run's oracles: per-call HTTP success and fresh uuid4 ids. -/
structure SyncEnv where
  httpOk : Nat → Bool
  gen : Nat → String

/-- `sync_db.py` `add_document` against the remote `/add`: consume one HTTP
outcome; on a delivered call the endpoint validates and stores
(`add_to_database`), and the client sees `success` exactly when both
happened. -/
def add_document (env : SyncEnv) (st : PushState) (d : Doc) : Bool × PushState :=
  let ok := env.httpOk st.calls
  let st' := { st with calls := st.calls + 1 }
  if ok ∧ d.text ≠ "" ∧ d.metadata ≠ [] then
    (true, { st' with
      remote := st'.remote ++ [mkRemoteDoc (env.gen st'.fresh) d],
      fresh := st'.fresh + 1 })
  else (false, st')

/-- `sync_db.py` `delete_document` against the remote `/delete`: consume one
HTTP outcome; a delivered call with a truthy id always succeeds
(ChromaDB delete is silent on absent ids). -/
def delete_document (env : SyncEnv) (st : PushState) (i : String) :
    Bool × PushState :=
  let ok := env.httpOk st.calls
  let st' := { st with calls := st.calls + 1 }
  if ok ∧ i ≠ "" then (true, { st' with remote := removeId st'.remote i })
  else (false, st')

/-- Python dict insertion: overwrite in place on key reuse, else append. -/
def dictInsert (m : List (Key × Doc)) (k : Key) (v : Doc) : List (Key × Doc) :=
  if m.any (fun p => p.1 = k) then
    m.map (fun p => if p.1 = k then (k, v) else p)
  else m ++ [(k, v)]

/-- `sync_db.py` lines 96-103: the composite-key map of a listing
(a dict comprehension, so the last document with a key wins). -/
def buildMap (docs : List Doc) : List (Key × Doc) :=
  docs.foldl (fun m d => dictInsert m (docKey d) d) []

/-- Assoc-list lookup on a key map. -/
def lookupKey (m : List (Key × Doc)) (k : Key) : Option Doc :=
  match m with
  | [] => none
  | p :: rest => if p.1 = k then some p.2 else lookupKey rest k

/-- `sync_db.py` lines 115-154, one iteration of the additions/updates loop:
key absent remotely is an add; key present on both sides goes through the
timestamp decision, an update being `delete_document` short-circuit-`and`-ed
with `add_document`. -/
def processLocalEntry (env : SyncEnv) (remoteMap : List (Key × Doc))
    (st : PushState) (kd : Key × Doc) : PushState :=
  match lookupKey remoteMap kd.1 with
  | none =>
    let (ok, st') := add_document env st kd.2
    if ok then { st' with added := st'.added + 1 }
    else { st' with failed := st'.failed + 1 }
  | some rd =>
    match syncDecision (get_timestamp kd.2) (get_timestamp rd) with
    | SyncAction.update =>
      let (ok1, st1) := delete_document env st rd.id
      if ok1 then
        let (ok2, st2) := add_document env st1 kd.2
        if ok2 then { st2 with updated := st2.updated + 1 }
        else { st2 with failed := st2.failed + 1 }
      else { st1 with failed := st1.failed + 1 }
    | SyncAction.skip => { st with skipped := st.skipped + 1 }

/-- `sync_db.py` lines 156-165, one iteration of the deletions loop: a key
absent locally gets its mapped remote document deleted. -/
def processRemoteEntry (env : SyncEnv) (localMap : List (Key × Doc))
    (st : PushState) (kd : Key × Doc) : PushState :=
  if (lookupKey localMap kd.1).isSome then st
  else
    let (ok, st') := delete_document env st kd.2.id
    if ok then { st' with deleted := st'.deleted + 1 }
    else { st' with failed := st'.failed + 1 }

/-- The zero-counter initial state over a remote store. -/
def initState (remoteDocs : List Doc) : PushState :=
  { remote := remoteDocs, added := 0, updated := 0, skipped := 0,
    deleted := 0, failed := 0, calls := 0, fresh := 0 }

/-- `sync_db.py` `push_to_remote` steps 2-5, given both listings succeeded:
build both maps, run the additions/updates loop over the local map, then the
deletions loop over the (pre-computed) remote map. -/
def push_to_remote (env : SyncEnv) (localDocs remoteDocs : List Doc) : PushState :=
  let localMap := buildMap localDocs
  let remoteMap := buildMap remoteDocs
  let st1 := localMap.foldl (processLocalEntry env remoteMap) (initState remoteDocs)
  remoteMap.foldl (processRemoteEntry env localMap) st1

/-- Outcome of a whole run: aborted before any mutation (a listing failed),
or completed with a final state. -/
inductive SyncOutcome where
  | aborted (remote : List Doc)
  | completed (st : PushState)
deriving Repr

/-- `sync_db.py` `push_to_remote` step 1 plus the rest: `fetch_all_documents`
on the local store yields `none` on failure; the remote listing, when it
succeeds, returns exactly the remote store's current contents. -/
def syncRun (env : SyncEnv) (localListing : Option (List Doc))
    (remoteOk : Bool) (remoteState : List Doc) : SyncOutcome :=
  match localListing with
  | none => SyncOutcome.aborted remoteState
  | some l =>
    if remoteOk then SyncOutcome.completed (push_to_remote env l remoteState)
    else SyncOutcome.aborted remoteState

/-! ### Derived notions used by the verification -/

/-- The sum of all five run counters. -/
def totalCount (st : PushState) : Nat :=
  st.added + st.updated + st.skipped + st.deleted + st.failed

/-- Whether the additions/updates loop pushes a fresh copy for this local
entry: the key is new remotely, or the timestamp decision is an update. -/
def pushedCond (rm : List (Key × Doc)) (kd : Key × Doc) : Bool :=
  match lookupKey rm kd.1 with
  | none => true
  | some rd =>
    match syncDecision (get_timestamp kd.2) (get_timestamp rd) with
    | SyncAction.update => true
    | SyncAction.skip => false

/-- Remote ids deleted by the update branches of the additions/updates loop. -/
def upd_ids (rm : List (Key × Doc)) : List (Key × Doc) → List String
  | [] => []
  | kd :: rest =>
    match lookupKey rm kd.1 with
    | none => upd_ids rm rest
    | some rd =>
      match syncDecision (get_timestamp kd.2) (get_timestamp rd) with
      | SyncAction.update => rd.id :: upd_ids rm rest
      | SyncAction.skip => upd_ids rm rest

/-- Remote ids deleted by the deletions loop (keys absent locally). -/
def del_ids (lm : List (Key × Doc)) : List (Key × Doc) → List String
  | [] => []
  | kd :: rest =>
    if (lookupKey lm kd.1).isSome then del_ids lm rest
    else kd.2.id :: del_ids lm rest

/-- Iterated `removeId`. -/
def removeIdList (docs : List Doc) : List String → List Doc
  | [] => docs
  | i :: rest => removeIdList (removeId docs i) rest

/-- The fresh remote copies appended by an all-successful additions/updates
loop, with the fresh-id counter starting at `n`. -/
def pushedDocs (env : SyncEnv) (rm : List (Key × Doc)) :
    Nat → List (Key × Doc) → List Doc
  | _, [] => []
  | n, kd :: rest =>
    if pushedCond rm kd then
      mkRemoteDoc (env.gen n) kd.2 :: pushedDocs env rm (n + 1) rest
    else pushedDocs env rm n rest

/-- The last document of a listing carrying a given composite key (what a
Python dict comprehension keyed on `docKey` retains). -/
def lastWithKey : List Doc → Key → Option Doc
  | [], _ => none
  | d :: rest, k =>
    match lastWithKey rest k with
    | some r => some r
    | none => if docKey d = k then some d else none

/-! ### Concrete fixtures for witnesses and counterexamples -/

/-- An oracle under which every HTTP call succeeds and fresh ids are
`new-0`, `new-1`, ... -/
def envOK : SyncEnv :=
  { httpOk := fun _ => true, gen := fun n => "new-" ++ toString n }

/-- Two remote documents sharing the composite key `("a.pdf", None)` —
two chunks of one PDF, as `process_pdf.py` produces them (same `source`,
a `section` field, no `page_number`). -/
def chunk1 : Doc :=
  ⟨"id1", "t1", [("source", MVal.s "a.pdf"), ("section", MVal.s "s1")]⟩

/-- Second chunk of the same file, different `section`. -/
def chunk2 : Doc :=
  ⟨"id2", "t2", [("source", MVal.s "a.pdf"), ("section", MVal.s "s2")]⟩

/-- A local-only document whose metadata does not mark it curated. -/
def plainLocalDoc : Doc := ⟨"lid", "text", [("source", MVal.s "a.pdf")]⟩

/-- A local document carrying a parseable `updated_at`. -/
def tsLocalDoc : Doc :=
  ⟨"lid2", "text2",
    [("source", MVal.s "b.pdf"),
     ("updated_at", MVal.s "2024-01-01T00:00:00Z")]⟩

/-- A remote document under the same key with no timestamp. -/
def noTsRemoteDoc : Doc := ⟨"rid2", "old", [("source", MVal.s "b.pdf")]⟩

/-! ### Metadata lemmas -/

theorem mdGet_map_replace_ne (md : Metadata) (k k' : String) (v : MVal)
    (h : k' ≠ k) :
    mdGet (md.map (fun p => if p.1 = k then (k, v) else p)) k' = mdGet md k' := by
  induction md with
  | nil => rfl
  | cons p rest ih =>
    simp only [List.map_cons]
    by_cases hp : p.1 = k
    · rw [if_pos hp]
      have hk : ¬ k = k' := fun hh => h hh.symm
      have hp' : ¬ p.1 = k' := by rw [hp]; exact hk
      simp only [mdGet, hk, if_false, if_neg hp', ih]
    · rw [if_neg hp]
      by_cases hq : p.1 = k' <;> simp only [mdGet, hq, if_true, if_false, ih]

theorem mdSet_cons_ne (p : String × MVal) (rest : Metadata) (k : String)
    (v : MVal) (h : p.1 ≠ k) :
    mdSet (p :: rest) k v = p :: mdSet rest k v := by
  by_cases ha : rest.any (fun q => q.1 = k) = true <;>
    simp [mdSet, List.any_cons, h, ha]

theorem mdGet_mdSet (md : Metadata) (k k' : String) (v : MVal) :
    mdGet (mdSet md k v) k' = if k' = k then some v else mdGet md k' := by
  induction md with
  | nil =>
    by_cases h : k' = k
    · simp [mdSet, mdGet, h]
    · have hk : ¬ k = k' := fun hh => h hh.symm
      simp [mdSet, mdGet, h, hk]
  | cons p rest ih =>
    by_cases hp : p.1 = k
    · have hany : ((p :: rest).any fun q => decide (q.1 = k)) = true := by
        simp [List.any_cons, hp]
      unfold mdSet
      rw [if_pos hany]
      simp only [List.map_cons, if_pos hp]
      by_cases h : k' = k
      · simp [mdGet, h]
      · have hk : ¬ k = k' := fun hh => h hh.symm
        have hp' : ¬ p.1 = k' := by rw [hp]; exact hk
        simp only [mdGet, hk, if_false, if_neg h,
          mdGet_map_replace_ne rest k k' v h, if_neg hp']
    · rw [mdSet_cons_ne p rest k v hp]
      by_cases hq : p.1 = k'
      · have hk : ¬ k' = k := fun hh => hp (hq.trans hh)
        simp [mdGet, hq, hk]
      · simp only [mdGet, if_neg hq, ih]

theorem processMetadata_eq_self (md : Metadata)
    (h : ∀ p ∈ md, ∀ vs, p.2 ≠ MVal.lst vs) : processMetadata md = md := by
  induction md with
  | nil => rfl
  | cons p rest ih =>
    have hp := h p (List.mem_cons_self _ _)
    have hrest : processMetadata rest = rest :=
      ih (fun q hq => h q (List.mem_cons_of_mem _ hq))
    unfold processMetadata at hrest ⊢
    simp only [List.map_cons, hrest]

theorem mdGet_addProcess (md : Metadata) (k : String) (hk : k ≠ "verified")
    (h : ∀ p ∈ md, ∀ vs, p.2 ≠ MVal.lst vs) :
    mdGet (addProcess md) k = mdGet md k := by
  unfold addProcess
  rw [mdGet_mdSet, if_neg hk, processMetadata_eq_self md h]

theorem docKey_mkRemoteDoc (i : String) (d : Doc)
    (h : ∀ p ∈ d.metadata, ∀ vs, p.2 ≠ MVal.lst vs) :
    docKey (mkRemoteDoc i d) = docKey d := by
  unfold docKey mkRemoteDoc
  rw [mdGet_addProcess _ _ (by decide) h, mdGet_addProcess _ _ (by decide) h]

theorem get_timestamp_mkRemoteDoc (i : String) (d : Doc)
    (h : ∀ p ∈ d.metadata, ∀ vs, p.2 ≠ MVal.lst vs) :
    get_timestamp (mkRemoteDoc i d) = get_timestamp d := by
  unfold get_timestamp mkRemoteDoc
  rw [mdGet_addProcess _ _ (by decide) h]

/-! ### removeId / removeIdList lemmas -/

theorem mem_removeId (docs : List Doc) (i : String) (d : Doc) :
    d ∈ removeId docs i ↔ d ∈ docs ∧ d.id ≠ i := by
  induction docs with
  | nil => simp [removeId]
  | cons x rest ih =>
    by_cases hx : x.id = i
    · simp only [removeId, if_pos hx, ih, List.mem_cons]
      constructor
      · rintro ⟨hd, hne⟩
        exact ⟨Or.inr hd, hne⟩
      · rintro ⟨hd | hd, hne⟩
        · exact absurd (hd ▸ hx) hne
        · exact ⟨hd, hne⟩
    · simp only [removeId, if_neg hx, List.mem_cons, ih]
      constructor
      · rintro (rfl | ⟨hd, hne⟩)
        · exact ⟨Or.inl rfl, hx⟩
        · exact ⟨Or.inr hd, hne⟩
      · rintro ⟨rfl | hd, hne⟩
        · exact Or.inl rfl
        · exact Or.inr ⟨hd, hne⟩

theorem removeId_append (a b : List Doc) (i : String) :
    removeId (a ++ b) i = removeId a i ++ removeId b i := by
  induction a with
  | nil => simp [removeId]
  | cons x rest ih =>
    by_cases hx : x.id = i <;> simp [removeId, hx, ih]

theorem removeId_of_forall_ne (docs : List Doc) (i : String)
    (h : ∀ d ∈ docs, d.id ≠ i) : removeId docs i = docs := by
  induction docs with
  | nil => rfl
  | cons x rest ih =>
    have hx : x.id ≠ i := h x (List.mem_cons_self _ _)
    rw [removeId, if_neg hx, ih (fun d hd => h d (List.mem_cons_of_mem _ hd))]

theorem mem_removeIdList (is : List String) (docs : List Doc) (d : Doc) :
    d ∈ removeIdList docs is ↔ d ∈ docs ∧ ∀ i ∈ is, d.id ≠ i := by
  induction is generalizing docs with
  | nil => simp [removeIdList]
  | cons i rest ih =>
    rw [removeIdList, ih, mem_removeId]
    constructor
    · rintro ⟨⟨hd, hne⟩, hall⟩
      refine ⟨hd, fun j hj => ?_⟩
      rcases List.mem_cons.mp hj with rfl | hj
      · exact hne
      · exact hall j hj
    · rintro ⟨hd, hall⟩
      exact ⟨⟨hd, hall i (List.mem_cons_self _ _)⟩,
        fun j hj => hall j (List.mem_cons_of_mem _ hj)⟩

theorem removeIdList_append_avoid (is : List String) (a b : List Doc)
    (h : ∀ d ∈ b, ∀ i ∈ is, d.id ≠ i) :
    removeIdList (a ++ b) is = removeIdList a is ++ b := by
  induction is generalizing a with
  | nil => rfl
  | cons i rest ih =>
    rw [removeIdList, removeIdList, removeId_append,
      removeId_of_forall_ne b i (fun d hd => h d hd i (List.mem_cons_self _ _)),
      ih (removeId a i) (fun d hd j hj => h d hd j (List.mem_cons_of_mem _ hj))]

theorem removeIdList_eq_nil (is : List String) (docs : List Doc)
    (h : ∀ d ∈ docs, ∃ i ∈ is, d.id = i) : removeIdList docs is = [] := by
  rw [List.eq_nil_iff_forall_not_mem]
  intro d hd
  rw [mem_removeIdList] at hd
  obtain ⟨i, hi, hdi⟩ := h d hd.1
  exact hd.2 i hi hdi

/-- C1: for a pair of documents matched under the same composite key during a
push reconciliation, the action is determined by the `updated_at` timestamps
exactly as specified: a parseable local timestamp that is strictly newer than
the remote's (or a remote without parseable timestamp) replaces the remote
copy — delete of the remote id followed by add of the local document; a
strictly newer remote timestamp, both timestamps missing/unparseable, or
equal timestamps skip the document and leave the remote copy unchanged. -/
theorem C1_matched_timestamp_action (env : SyncEnv) (rm : List (Key × Doc))
    (st : PushState) (k : Key) (ld rd : Doc)
    (hfound : lookupKey rm k = some rd)
    (hok1 : env.httpOk st.calls = true)
    (hok2 : env.httpOk (st.calls + 1) = true)
    (htext : ld.text ≠ "") (hmd : ld.metadata ≠ []) (hid : rd.id ≠ "") :
    ((∃ lt, get_timestamp ld = some lt ∧
        (get_timestamp rd = none ∨ ∃ rt, get_timestamp rd = some rt ∧ rt < lt)) →
      processLocalEntry env rm st (k, ld) =
        { st with
            remote := removeId st.remote rd.id ++
              [mkRemoteDoc (env.gen st.fresh) ld],
            updated := st.updated + 1,
            calls := st.calls + 2,
            fresh := st.fresh + 1 }) ∧
    ((get_timestamp ld = none ∨
        ∃ lt rt, get_timestamp ld = some lt ∧ get_timestamp rd = some rt ∧
          lt ≤ rt) →
      processLocalEntry env rm st (k, ld) =
        { st with skipped := st.skipped + 1 }) := by
  constructor
  · rintro ⟨lt, hl, hr⟩
    have hdec : syncDecision (get_timestamp ld) (get_timestamp rd) =
        SyncAction.update := by
      rcases hr with hnone | ⟨rt, hrt, hlt⟩
      · rw [hl, hnone]
        rfl
      · rw [hl, hrt]
        simp [syncDecision, hlt]
    simp only [processLocalEntry, hfound, hdec, delete_document, add_document,
      hok1]
    simp [hid, htext, hmd, hok2]
  · intro hcond
    have hdec : syncDecision (get_timestamp ld) (get_timestamp rd) =
        SyncAction.skip := by
      rcases hcond with hnone | ⟨lt, rt, hl, hrt, hle⟩
      · rw [hnone]
        cases get_timestamp rd <;> rfl
      · rw [hl, hrt]
        simp [syncDecision, not_lt.mpr hle]
    simp only [processLocalEntry, hfound, hdec]

/-- Closed instance of `C1_matched_timestamp_action`: a local document with
`updated_at = 2024-01-01T00:00:00Z` against a remote copy without timestamp
is replaced (delete then add). -/
theorem C1_matched_timestamp_action_witness :
    processLocalEntry envOK [((some (MVal.s "b.pdf"), none), noTsRemoteDoc)]
      (initState [noTsRemoteDoc]) ((some (MVal.s "b.pdf"), none), tsLocalDoc) =
    { initState [noTsRemoteDoc] with
        remote := removeId (initState [noTsRemoteDoc]).remote noTsRemoteDoc.id ++
          [mkRemoteDoc (envOK.gen (initState [noTsRemoteDoc]).fresh) tsLocalDoc],
        updated := (initState [noTsRemoteDoc]).updated + 1,
        calls := (initState [noTsRemoteDoc]).calls + 2,
        fresh := (initState [noTsRemoteDoc]).fresh + 1 } :=
  (C1_matched_timestamp_action envOK
      [((some (MVal.s "b.pdf"), none), noTsRemoteDoc)]
      (initState [noTsRemoteDoc]) (some (MVal.s "b.pdf"), none)
      tsLocalDoc noTsRemoteDoc rfl rfl rfl
      (by decide) (by decide) (by decide)).1
    ⟨1704067200000000, by decide, Or.inl (by decide)⟩

theorem totalCount_processLocalEntry (env : SyncEnv) (rm : List (Key × Doc))
    (st : PushState) (kd : Key × Doc) :
    totalCount (processLocalEntry env rm st kd) = totalCount st + 1 := by
  unfold processLocalEntry add_document delete_document
  cases hl : lookupKey rm kd.1 with
  | none =>
    by_cases hc : env.httpOk st.calls = true ∧ kd.2.text ≠ "" ∧ kd.2.metadata ≠ []
    · simp [hc, totalCount] <;> omega
    · simp [hc, totalCount] <;> omega
  | some rd =>
    cases hdec : syncDecision (get_timestamp kd.2) (get_timestamp rd) with
    | skip => simp [hdec, totalCount] <;> omega
    | update =>
      by_cases hc1 : env.httpOk st.calls = true ∧ rd.id ≠ ""
      · by_cases hc2 : env.httpOk (st.calls + 1) = true ∧ kd.2.text ≠ "" ∧
            kd.2.metadata ≠ []
        · simp [hdec, hc1, hc2, totalCount] <;> omega
        · simp [hdec, hc1, hc2, totalCount] <;> omega
      · simp [hdec, hc1, totalCount] <;> omega

theorem totalCount_processRemoteEntry (env : SyncEnv) (lm : List (Key × Doc))
    (st : PushState) (kd : Key × Doc) :
    totalCount (processRemoteEntry env lm st kd) =
      totalCount st + (if (lookupKey lm kd.1).isSome then 0 else 1) := by
  unfold processRemoteEntry delete_document
  cases hl : lookupKey lm kd.1 with
  | some d => simp
  | none =>
    by_cases hc : env.httpOk st.calls = true ∧ kd.2.id ≠ ""
    · simp [totalCount, hc]
      omega
    · simp [totalCount, hc]
      omega

theorem totalCount_foldl_local (env : SyncEnv) (rm : List (Key × Doc))
    (entries : List (Key × Doc)) (st : PushState) :
    totalCount (entries.foldl (processLocalEntry env rm) st) =
      totalCount st + entries.length := by
  induction entries generalizing st with
  | nil => simp
  | cons kd rest ih =>
    rw [List.foldl_cons, ih, totalCount_processLocalEntry, List.length_cons]
    omega

theorem totalCount_foldl_remote (env : SyncEnv) (lm : List (Key × Doc))
    (entries : List (Key × Doc)) (st : PushState) :
    totalCount (entries.foldl (processRemoteEntry env lm) st) =
      totalCount st +
        (entries.filter (fun kd => (lookupKey lm kd.1).isNone)).length := by
  induction entries generalizing st with
  | nil => simp
  | cons kd rest ih =>
    rw [List.foldl_cons, ih, totalCount_processRemoteEntry]
    cases hl : lookupKey lm kd.1 with
    | some d => simp [List.filter_cons, hl]
    | none =>
      simp [List.filter_cons, hl]
      omega

/-- C2: a push reconciliation run issues no call against the remote store
when either listing fails — the run aborts with the remote state untouched;
once both listings succeeded, the run always processes every local-map entry
and every remote-only entry, each contributing exactly one count (success or
failure) — so no per-document failure aborts the run, every failure is
counted, and processing continues until all documents on both sides have
been considered. -/
theorem C2_abort_and_full_accounting (env : SyncEnv) (rstate : List Doc)
    (rok : Bool) (ldocs : List Doc) :
    syncRun env none rok rstate = SyncOutcome.aborted rstate ∧
    syncRun env (some ldocs) false rstate = SyncOutcome.aborted rstate ∧
    totalCount (push_to_remote env ldocs rstate) =
      (buildMap ldocs).length +
        ((buildMap rstate).filter
          (fun kd => (lookupKey (buildMap ldocs) kd.1).isNone)).length := by
  refine ⟨rfl, rfl, ?_⟩
  show totalCount ((buildMap rstate).foldl
      (processRemoteEntry env (buildMap ldocs))
      ((buildMap ldocs).foldl (processLocalEntry env (buildMap rstate))
        (initState rstate))) = _
  rw [totalCount_foldl_remote, totalCount_foldl_local]
  have h0 : totalCount (initState rstate) = 0 := rfl
  omega

/-- C3: `query_database` returns the verified-filtered result set if and only
if the filtered query succeeded, returned a non-empty result set, and its
top-ranked distance is strictly below 0.5; in every other case (empty
verified set, top verified distance at or above 0.5, or a filtered-query
error) it returns the unfiltered query's result, and a failure of the
filtered query is never surfaced as an error to the caller. -/
theorem C3_two_phase_retrieval (f u : Except String (List QueryHit)) :
    (∀ q rest, f = Except.ok (q :: rest) → q.distance < 1/2 →
      query_database f u = Except.ok (formatResults (q :: rest))) ∧
    (∀ r, f = Except.ok r →
      (r = [] ∨ ∀ q rest, r = q :: rest → ¬ q.distance < 1/2) →
      query_database f u = Except.map formatResults u) ∧
    (∀ e, f = Except.error e →
      query_database f u = Except.map formatResults u) := by
  refine ⟨?_, ?_, ?_⟩
  · rintro q rest rfl hd
    rw [show (1 : ℚ)/2 = 2⁻¹ from one_div 2] at hd
    simp [query_database, hd]
  · rintro r rfl hcond
    rcases hcond with rfl | hcond
    · simp [query_database]
    · cases r with
      | nil => simp [query_database]
      | cons q rest =>
        have hq := hcond q rest rfl
        rw [show (1 : ℚ)/2 = 2⁻¹ from one_div 2] at hq
        simp [query_database, hq]
  · rintro e rfl
    simp [query_database]

/-- Closed instance of `C3_two_phase_retrieval`: a verified hit at distance
0.1 is returned as-is. -/
theorem C3_two_phase_retrieval_witness :
    query_database (Except.ok [⟨"q1", "d", [], 1/10⟩]) (Except.ok []) =
      Except.ok (formatResults [⟨"q1", "d", [], 1/10⟩]) :=
  (C3_two_phase_retrieval (Except.ok [⟨"q1", "d", [], 1/10⟩])
      (Except.ok [])).1 ⟨"q1", "d", [], 1/10⟩ [] rfl (by norm_num)

/-- C5 counterexample: two documents with the same `source` but different
`section` values (and no `page_number`) — two chunks of one PDF as
`process_pdf.py` stores them — receive the same composite key, so they are
the same sync-unit, refuting the claim that they are distinct sync-units. -/
theorem C5_counterexample :
    mdGet chunk1.metadata "source" = mdGet chunk2.metadata "source" ∧
    mdGet chunk1.metadata "section" ≠ mdGet chunk2.metadata "section" ∧
    docKey chunk1 = docKey chunk2 := by
  decide

/-- C5 as amended: two documents are the same sync-unit (same composite key)
if and only if their `source` values and their `page_number` values agree —
the `section` field does not participate in the key. -/
theorem C5_amended_key_is_source_and_page (d1 d2 : Doc) :
    docKey d1 = docKey d2 ↔
      (mdGet d1.metadata "source" = mdGet d2.metadata "source" ∧
       mdGet d1.metadata "page_number" = mdGet d2.metadata "page_number") := by
  unfold docKey
  exact Prod.ext_iff

/-- C7 counterexample: an add call whose supplied metadata carries no curated
marking at all still stores the document with `verified = True`. -/
theorem C7_counterexample :
    mdGet plainLocalDoc.metadata "verified" = none ∧
    (add_to_database [] "i0" plainLocalDoc.text plainLocalDoc.metadata).2 =
      [⟨"i0", "text",
        [("source", MVal.s "a.pdf"), ("verified", MVal.b true)]⟩] := by
  decide

/-- C7 as amended: every successful add call stores its document with
`verified = True`, regardless of the caller's supplied metadata — the flag
does not reflect any curated/human-approved marking. -/
theorem C7_amended_add_always_verified (st : List Doc)
    (newId document : String) (metadata : Metadata)
    (hdoc : document ≠ "") (hmd : metadata ≠ []) :
    (add_to_database st newId document metadata).1 = AddResp.ok newId ∧
    ∃ d, (add_to_database st newId document metadata).2 = st ++ [d] ∧
      mdGet d.metadata "verified" = some (MVal.b true) := by
  unfold add_to_database
  have hcond : ¬ (document = "" ∨ metadata = []) := by tauto
  rw [if_neg hcond]
  refine ⟨rfl, mkRemoteDoc newId ⟨newId, document, metadata⟩, rfl, ?_⟩
  unfold mkRemoteDoc addProcess
  simp [mdGet_mdSet]

/-- Closed instance of `C7_amended_add_always_verified`. -/
theorem C7_amended_add_always_verified_witness :
    (add_to_database [] "i0" "t" [("source", MVal.s "x")]).1 =
      AddResp.ok "i0" ∧
    ∃ d, (add_to_database [] "i0" "t" [("source", MVal.s "x")]).2 =
      [] ++ [d] ∧ mdGet d.metadata "verified" = some (MVal.b true) :=
  C7_amended_add_always_verified [] "i0" "t" [("source", MVal.s "x")]
    (by decide) (by decide)

/-- C8 counterexample: deleting an id that is not present in the store
answers success (the id and an unchanged empty store), not a `NotFound`
error — the caller cannot observe the stale state. -/
theorem C8_counterexample :
    (∀ d ∈ ([] : List Doc), d.id ≠ "x") ∧
    delete_from_database [] (some "x") = (DeleteResp.ok "x", []) := by
  exact ⟨fun d hd => absurd hd (List.not_mem_nil d), rfl⟩

/-- C8 as amended: the delete endpoint answers success for every non-empty
id, present in the store or not (ChromaDB's delete is silent on absent ids);
only a missing or empty id yields the 400 error. -/
theorem C8_amended_delete_silent (st : List Doc) (i : String) (hi : i ≠ "") :
    delete_from_database st (some i) = (DeleteResp.ok i, removeId st i) ∧
    delete_from_database st none = (DeleteResp.badRequest, st) := by
  simp [delete_from_database, hi]

/-- Closed instance of `C8_amended_delete_silent`. -/
theorem C8_amended_delete_silent_witness :
    delete_from_database [chunk1] (some "zzz") =
      (DeleteResp.ok "zzz", removeId [chunk1] "zzz") ∧
    delete_from_database [chunk1] none = (DeleteResp.badRequest, [chunk1]) :=
  C8_amended_delete_silent [chunk1] "zzz" (by decide)

/-- C9 counterexample: an upload whose *name* ends in `.zip` but whose bytes
are not a valid archive is not rejected with 400 — the persisted directory
is cleared before unpacking, the unpack raises, and the caller sees a 500
with the directory wiped. -/
theorem C9_counterexample :
    restore_database (some ⟨"a.zip", FileContent.invalid⟩) [("f", "data")] =
      ({ status := 500, success := false, reloaded := false }, []) ∧
    (500 : Nat) ≠ 400 ∧
    ([] : List (String × String)) ≠ [("f", "data")] := by
  decide

/-- C9 as amended: only the filename is validated — a name not ending in
`.zip` (or a missing upload) is rejected with 400 and the directory is
unchanged; a `.zip` name with a valid archive clears the directory, unpacks
into it and re-creates the live handle; a `.zip` name with invalid bytes
clears the directory, fails with 500, and leaves the directory cleared. -/
theorem C9_amended_restore_behavior (f : UploadedFile)
    (dir : List (String × String)) :
    (¬ strEndsWith f.filename ".zip" = true →
      restore_database (some f) dir =
        ({ status := 400, success := false, reloaded := false }, dir)) ∧
    (∀ files, strEndsWith f.filename ".zip" = true →
      f.content = FileContent.archive files →
      restore_database (some f) dir =
        ({ status := 200, success := true, reloaded := true }, files)) ∧
    (strEndsWith f.filename ".zip" = true →
      f.content = FileContent.invalid →
      restore_database (some f) dir =
        ({ status := 500, success := false, reloaded := false }, [])) ∧
    restore_database none dir =
      ({ status := 400, success := false, reloaded := false }, dir) := by
  refine ⟨?_, ?_, ?_, rfl⟩
  · intro hz
    by_cases hn : f.filename = "" <;> simp [restore_database, hn, hz]
  · intro files hz hc
    have hn : f.filename ≠ "" := by
      intro hh
      rw [hh] at hz
      exact absurd hz (by decide)
    simp [restore_database, hn, hz, hc]
  · intro hz hc
    have hn : f.filename ≠ "" := by
      intro hh
      rw [hh] at hz
      exact absurd hz (by decide)
    simp [restore_database, hn, hz, hc]

/-- Closed instance of `C9_amended_restore_behavior`: a valid archive named
`b.zip` replaces the directory contents and reloads the handle. -/
theorem C9_amended_restore_behavior_witness :
    restore_database (some ⟨"b.zip", FileContent.archive [("x", "1")]⟩)
      [("old", "0")] =
      ({ status := 200, success := true, reloaded := true }, [("x", "1")]) :=
  (C9_amended_restore_behavior ⟨"b.zip", FileContent.archive [("x", "1")]⟩
      [("old", "0")]).2.1 [("x", "1")] (by decide) rfl

/-! ### buildMap / lookupKey / lastWithKey lemmas -/

theorem lookupKey_map_replace_ne (m : List (Key × Doc)) (k0 k : Key) (v : Doc)
    (h : ¬ k0 = k) :
    lookupKey (m.map (fun p => if p.1 = k0 then (k0, v) else p)) k =
      lookupKey m k := by
  induction m with
  | nil => rfl
  | cons p rest ih =>
    simp only [List.map_cons]
    by_cases hp : p.1 = k0
    · rw [if_pos hp]
      have hp' : ¬ p.1 = k := by rw [hp]; exact h
      simp only [lookupKey, if_neg h, if_neg hp', ih]
    · rw [if_neg hp]
      by_cases hq : p.1 = k <;> simp only [lookupKey, hq, if_true, if_false, ih]

theorem lookupKey_dictInsert (m : List (Key × Doc)) (k0 : Key) (v : Doc)
    (k : Key) :
    lookupKey (dictInsert m k0 v) k =
      if k0 = k then some v else lookupKey m k := by
  induction m with
  | nil =>
    by_cases h : k0 = k
    · simp [dictInsert, lookupKey, h]
    · have hk : ¬ k = k0 := fun hh => h hh.symm
      simp [dictInsert, lookupKey, h, hk]
  | cons p rest ih =>
    by_cases hp : p.1 = k0
    · have hany : ((p :: rest).any fun q => decide (q.1 = k0)) = true := by
        simp [List.any_cons, hp]
      unfold dictInsert
      rw [if_pos hany]
      simp only [List.map_cons, if_pos hp]
      by_cases h : k0 = k
      · simp [lookupKey, h]
      · have hp' : ¬ p.1 = k := by rw [hp]; exact h
        simp only [lookupKey, if_neg h, if_neg hp']
        exact lookupKey_map_replace_ne rest k0 k v h
    · have hstep : dictInsert (p :: rest) k0 v = p :: dictInsert rest k0 v := by
        by_cases ha : rest.any (fun q => q.1 = k0) = true <;>
          simp [dictInsert, List.any_cons, hp, ha]
      rw [hstep]
      by_cases hq : p.1 = k
      · have hk : ¬ k0 = k := fun hh => hp (by rw [hh]; exact hq)
        simp [lookupKey, hq, hk]
      · simp only [lookupKey, if_neg hq, ih]

theorem lookupKey_buildMap_aux (docs : List Doc) (m : List (Key × Doc))
    (k : Key) :
    lookupKey (docs.foldl (fun acc d => dictInsert acc (docKey d) d) m) k =
      match lastWithKey docs k with
      | some d => some d
      | none => lookupKey m k := by
  induction docs generalizing m with
  | nil => rfl
  | cons d rest ih =>
    rw [List.foldl_cons, ih]
    cases hr : lastWithKey rest k with
    | some r => simp [lastWithKey, hr]
    | none =>
      simp only [lastWithKey, hr]
      rw [lookupKey_dictInsert]
      by_cases hd : docKey d = k
      · simp [hd]
      · simp [hd]

/-- Looking a key up in the reconciliation map returns the last document of
the listing carrying that key (Python dict-comprehension semantics). -/
theorem lookupKey_buildMap (docs : List Doc) (k : Key) :
    lookupKey (buildMap docs) k = lastWithKey docs k := by
  unfold buildMap
  rw [lookupKey_buildMap_aux]
  cases h : lastWithKey docs k <;> rfl

theorem lastWithKey_mem (docs : List Doc) (k : Key) (d : Doc)
    (h : lastWithKey docs k = some d) : d ∈ docs ∧ docKey d = k := by
  induction docs with
  | nil => cases h
  | cons x rest ih =>
    rw [lastWithKey] at h
    cases hr : lastWithKey rest k with
    | some r =>
      rw [hr] at h
      have h' : some r = some d := h
      obtain ⟨hm, hk⟩ := ih (hr.trans h')
      exact ⟨List.mem_cons_of_mem _ hm, hk⟩
    | none =>
      rw [hr] at h
      have h' : (if docKey x = k then some x else none) = some d := h
      by_cases hx : docKey x = k
      · rw [if_pos hx] at h'
        cases h'
        exact ⟨List.mem_cons_self _ _, hx⟩
      · rw [if_neg hx] at h'
        cases h'

theorem lastWithKey_none_iff (docs : List Doc) (k : Key) :
    lastWithKey docs k = none ↔ ∀ d ∈ docs, docKey d ≠ k := by
  induction docs with
  | nil => simp [lastWithKey]
  | cons x rest ih =>
    rw [lastWithKey]
    cases hr : lastWithKey rest k with
    | some r =>
      constructor
      · intro h
        cases h
      · intro h
        obtain ⟨hm, hk⟩ := lastWithKey_mem rest k r hr
        exact absurd hk (h r (List.mem_cons_of_mem _ hm))
    | none =>
      constructor
      · intro h
        have h' : (if docKey x = k then some x else none) = none := h
        by_cases hx : docKey x = k
        · rw [if_pos hx] at h'
          cases h'
        · intro d hd
          rcases List.mem_cons.mp hd with rfl | hd
          · exact hx
          · exact (ih.mp hr) d hd
      · intro h
        show (if docKey x = k then some x else none) = none
        rw [if_neg (h x (List.mem_cons_self _ _))]

theorem lastWithKey_append (a b : List Doc) (k : Key) :
    lastWithKey (a ++ b) k =
      match lastWithKey b k with
      | some d => some d
      | none => lastWithKey a k := by
  induction a with
  | nil =>
    cases h : lastWithKey b k <;> simp [lastWithKey, h]
  | cons x rest ih =>
    show lastWithKey (x :: (rest ++ b)) k = _
    rw [lastWithKey, ih]
    cases h : lastWithKey b k with
    | some d => rfl
    | none => rfl

theorem lastWithKey_unique (docs : List Doc) (k : Key) (d : Doc)
    (hd : d ∈ docs) (hk : docKey d = k)
    (huniq : ∀ x ∈ docs, docKey x = k → x = d) :
    lastWithKey docs k = some d := by
  induction docs with
  | nil => cases hd
  | cons x rest ih =>
    rw [lastWithKey]
    cases hr : lastWithKey rest k with
    | some r =>
      obtain ⟨hm, hkr⟩ := lastWithKey_mem rest k r hr
      show some r = some d
      rw [huniq r (List.mem_cons_of_mem _ hm) hkr]
    | none =>
      show (if docKey x = k then some x else none) = some d
      rcases List.mem_cons.mp hd with rfl | hmem
      · rw [if_pos hk]
      · exact absurd hk ((lastWithKey_none_iff rest k).mp hr d hmem)

theorem mem_dictInsert (m : List (Key × Doc)) (k : Key) (v : Doc)
    (p : Key × Doc) (h : p ∈ dictInsert m k v) : p ∈ m ∨ p = (k, v) := by
  unfold dictInsert at h
  by_cases ha : (m.any fun q => decide (q.1 = k)) = true
  · rw [if_pos ha] at h
    obtain ⟨q, hq, hfq⟩ := List.mem_map.mp h
    by_cases hqk : q.1 = k
    · rw [if_pos hqk] at hfq
      exact Or.inr hfq.symm
    · rw [if_neg hqk] at hfq
      exact Or.inl (hfq ▸ hq)
  · rw [if_neg ha] at h
    rcases List.mem_append.mp h with hm | hm
    · exact Or.inl hm
    · exact Or.inr (List.mem_singleton.mp hm)

theorem mem_buildMap_aux (docs : List Doc) (m : List (Key × Doc))
    (p : Key × Doc)
    (h : p ∈ docs.foldl (fun acc d => dictInsert acc (docKey d) d) m) :
    p ∈ m ∨ (p.2 ∈ docs ∧ docKey p.2 = p.1) := by
  induction docs generalizing m with
  | nil => exact Or.inl h
  | cons d rest ih =>
    rw [List.foldl_cons] at h
    rcases ih (dictInsert m (docKey d) d) h with hm | ⟨hmem, hkey⟩
    · rcases mem_dictInsert m (docKey d) d p hm with hm' | rfl
      · exact Or.inl hm'
      · exact Or.inr ⟨List.mem_cons_self _ _, rfl⟩
    · exact Or.inr ⟨List.mem_cons_of_mem _ hmem, hkey⟩

/-- Every entry of the reconciliation map is a listed document keyed by its
own composite key. -/
theorem mem_buildMap (docs : List Doc) (p : Key × Doc)
    (h : p ∈ buildMap docs) : p.2 ∈ docs ∧ docKey p.2 = p.1 := by
  rcases mem_buildMap_aux docs [] p h with hm | hp
  · cases hm
  · exact hp

theorem keys_dictInsert_sub (m : List (Key × Doc)) (k : Key) (v : Doc)
    (k' : Key) :
    (∃ p ∈ dictInsert m k v, p.1 = k') ↔ (∃ p ∈ m, p.1 = k') ∨ k = k' := by
  unfold dictInsert
  by_cases ha : (m.any fun q => decide (q.1 = k)) = true
  · rw [if_pos ha]
    have hex : ∃ q ∈ m, q.1 = k := by
      obtain ⟨q, hq, hqk⟩ := List.any_eq_true.mp ha
      exact ⟨q, hq, of_decide_eq_true hqk⟩
    constructor
    · rintro ⟨p, hp, rfl⟩
      obtain ⟨q, hq, hfq⟩ := List.mem_map.mp hp
      by_cases hqk : q.1 = k
      · rw [if_pos hqk] at hfq
        exact Or.inr (congrArg Prod.fst hfq)
      · rw [if_neg hqk] at hfq
        exact Or.inl ⟨q, hq, congrArg Prod.fst hfq⟩
    · rintro (⟨p, hp, rfl⟩ | rfl)
      · by_cases hpk : p.1 = k
        · obtain ⟨q, hq, hqk⟩ := hex
          refine ⟨(k, v), List.mem_map.mpr ⟨q, hq, by rw [if_pos hqk]⟩, ?_⟩
          rw [← hpk]
        · exact ⟨p, List.mem_map.mpr ⟨p, hp, by rw [if_neg hpk]⟩, rfl⟩
      · obtain ⟨q, hq, hqk⟩ := hex
        exact ⟨(k, v), List.mem_map.mpr ⟨q, hq, by rw [if_pos hqk]⟩, rfl⟩
  · rw [if_neg ha]
    constructor
    · rintro ⟨p, hp, rfl⟩
      rcases List.mem_append.mp hp with hm | hm
      · exact Or.inl ⟨p, hm, rfl⟩
      · rw [List.mem_singleton.mp hm]
        exact Or.inr rfl
    · rintro (⟨p, hp, rfl⟩ | rfl)
      · exact ⟨p, List.mem_append_left _ hp, rfl⟩
      · exact ⟨(k, v), List.mem_append_right _ (List.mem_singleton.mpr rfl), rfl⟩

theorem keys_buildMap_aux (docs : List Doc) (m : List (Key × Doc)) (k : Key) :
    (∃ p ∈ docs.foldl (fun acc d => dictInsert acc (docKey d) d) m, p.1 = k) ↔
      (∃ p ∈ m, p.1 = k) ∨ ∃ d ∈ docs, docKey d = k := by
  induction docs generalizing m with
  | nil => simp
  | cons d rest ih =>
    rw [List.foldl_cons, ih, keys_dictInsert_sub]
    constructor
    · rintro ((h | rfl) | h)
      · exact Or.inl h
      · exact Or.inr ⟨d, List.mem_cons_self _ _, rfl⟩
      · obtain ⟨x, hx, hk⟩ := h
        exact Or.inr ⟨x, List.mem_cons_of_mem _ hx, hk⟩
    · rintro (h | ⟨x, hx, hk⟩)
      · exact Or.inl (Or.inl h)
      · rcases List.mem_cons.mp hx with rfl | hx
        · exact Or.inl (Or.inr hk)
        · exact Or.inr ⟨x, hx, hk⟩

/-- A key is present in the reconciliation map iff some listed document
carries it. -/
theorem keys_buildMap (docs : List Doc) (k : Key) :
    (∃ p ∈ buildMap docs, p.1 = k) ↔ ∃ d ∈ docs, docKey d = k := by
  rw [buildMap, keys_buildMap_aux]
  simp

theorem lookupKey_isSome_iff (m : List (Key × Doc)) (k : Key) :
    (lookupKey m k).isSome = true ↔ ∃ p ∈ m, p.1 = k := by
  induction m with
  | nil => simp [lookupKey]
  | cons p rest ih =>
    rw [lookupKey]
    by_cases hp : p.1 = k
    · simp [hp]
    · rw [if_neg hp, ih]
      constructor
      · rintro ⟨q, hq, rfl⟩
        exact ⟨q, List.mem_cons_of_mem _ hq, rfl⟩
      · rintro ⟨q, hq, rfl⟩
        rcases List.mem_cons.mp hq with rfl | hq
        · exact absurd rfl hp
        · exact ⟨q, hq, rfl⟩

theorem keys_dictInsert_pos (m : List (Key × Doc)) (k : Key) (v : Doc)
    (ha : (m.any fun q => decide (q.1 = k)) = true) :
    (dictInsert m k v).map Prod.fst = m.map Prod.fst := by
  unfold dictInsert
  rw [if_pos ha]
  clear ha
  induction m with
  | nil => rfl
  | cons p rest ih =>
    simp only [List.map_cons, ih]
    by_cases hp : p.1 = k
    · rw [if_pos hp]
      simp [hp]
    · rw [if_neg hp]

theorem keys_dictInsert_neg (m : List (Key × Doc)) (k : Key) (v : Doc)
    (ha : ¬ (m.any fun q => decide (q.1 = k)) = true) :
    (dictInsert m k v).map Prod.fst = m.map Prod.fst ++ [k] := by
  unfold dictInsert
  rw [if_neg ha]
  simp

theorem buildMap_keys_nodup_aux (docs : List Doc) (m : List (Key × Doc))
    (hm : (m.map Prod.fst).Nodup) :
    ((docs.foldl (fun acc d => dictInsert acc (docKey d) d) m).map
      Prod.fst).Nodup := by
  induction docs generalizing m with
  | nil => exact hm
  | cons d rest ih =>
    rw [List.foldl_cons]
    refine ih _ ?_
    by_cases ha : (m.any fun q => decide (q.1 = docKey d)) = true
    · rw [keys_dictInsert_pos m _ d ha]
      exact hm
    · rw [keys_dictInsert_neg m _ d ha]
      rw [List.nodup_append]
      refine ⟨hm, List.nodup_singleton _, ?_⟩
      intro a hamem hasing
      rw [List.mem_singleton.mp hasing] at hamem
      obtain ⟨p, hp, hpk⟩ := List.mem_map.mp hamem
      exact ha (List.any_eq_true.mpr ⟨p, hp, decide_eq_true hpk⟩)

/-- The reconciliation map has pairwise-distinct keys (it is a dict). -/
theorem buildMap_keys_nodup (docs : List Doc) :
    ((buildMap docs).map Prod.fst).Nodup :=
  buildMap_keys_nodup_aux docs [] List.nodup_nil

theorem entry_unique_of_keys_nodup (m : List (Key × Doc))
    (hnd : (m.map Prod.fst).Nodup) (k : Key) (a b : Doc)
    (ha : (k, a) ∈ m) (hb : (k, b) ∈ m) : a = b := by
  induction m with
  | nil => cases ha
  | cons p rest ih =>
    rw [List.map_cons, List.nodup_cons] at hnd
    rcases List.mem_cons.mp ha with rfl | ha' <;>
      rcases List.mem_cons.mp hb with hb' | hb'
    · cases hb'
      rfl
    · exact absurd (List.mem_map.mpr ⟨(k, b), hb', rfl⟩) hnd.1
    · rw [← hb'] at hnd
      exact absurd (List.mem_map.mpr ⟨(k, a), ha', rfl⟩) hnd.1
    · exact ih hnd.2 ha' hb'

theorem foldl_dictInsert_fresh (docs : List Doc) (m : List (Key × Doc))
    (hnd : (docs.map docKey).Nodup)
    (hdisj : ∀ d ∈ docs, ∀ p ∈ m, p.1 ≠ docKey d) :
    docs.foldl (fun acc d => dictInsert acc (docKey d) d) m =
      m ++ docs.map (fun d => (docKey d, d)) := by
  induction docs generalizing m with
  | nil => simp
  | cons d rest ih =>
    rw [List.map_cons, List.nodup_cons] at hnd
    rw [List.foldl_cons]
    have hins : dictInsert m (docKey d) d = m ++ [(docKey d, d)] := by
      unfold dictInsert
      rw [if_neg]
      intro ha
      obtain ⟨p, hp, hpk⟩ := List.any_eq_true.mp ha
      exact hdisj d (List.mem_cons_self _ _) p hp (of_decide_eq_true hpk)
    rw [hins, ih (m ++ [(docKey d, d)]) hnd.2]
    · simp
    · intro d' hd' p hp
      rcases List.mem_append.mp hp with hp | hp
      · exact hdisj d' (List.mem_cons_of_mem _ hd') p hp
      · rw [List.mem_singleton.mp hp]
        intro hh
        exact hnd.1 (List.mem_map.mpr ⟨d', hd', hh.symm⟩)

/-- When the listing's composite keys are pairwise distinct, the
reconciliation map is exactly the listing keyed by `docKey`. -/
theorem buildMap_eq_map (docs : List Doc) (hnd : (docs.map docKey).Nodup) :
    buildMap docs = docs.map (fun d => (docKey d, d)) := by
  rw [buildMap, foldl_dictInsert_fresh docs [] hnd]
  · simp
  · intro d _ p hp
    cases hp

theorem lookupKey_mem (m : List (Key × Doc)) (k : Key) (d : Doc)
    (h : lookupKey m k = some d) : (k, d) ∈ m := by
  induction m with
  | nil => cases h
  | cons p rest ih =>
    rw [lookupKey] at h
    by_cases hp : p.1 = k
    · rw [if_pos hp] at h
      have hpd : p = (k, d) := by
        cases h
        rw [← hp]
      rw [← hpd]
      exact List.mem_cons_self _ _
    · rw [if_neg hp] at h
      exact List.mem_cons_of_mem _ (ih h)

theorem mem_upd_ids (rm : List (Key × Doc)) (entries : List (Key × Doc))
    (i : String) (h : i ∈ upd_ids rm entries) :
    ∃ kd ∈ entries, ∃ rd, lookupKey rm kd.1 = some rd ∧
      syncDecision (get_timestamp kd.2) (get_timestamp rd) =
        SyncAction.update ∧ i = rd.id := by
  induction entries with
  | nil => cases h
  | cons kd rest ih =>
    rw [upd_ids] at h
    cases hl : lookupKey rm kd.1 with
    | none =>
      rw [hl] at h
      obtain ⟨kd', hm, rest'⟩ := ih h
      exact ⟨kd', List.mem_cons_of_mem _ hm, rest'⟩
    | some rd =>
      rw [hl] at h
      have h2 : i ∈
          (match syncDecision (get_timestamp kd.2) (get_timestamp rd) with
            | SyncAction.update => rd.id :: upd_ids rm rest
            | SyncAction.skip => upd_ids rm rest) := h
      cases hdec : syncDecision (get_timestamp kd.2) (get_timestamp rd) with
      | update =>
        rw [hdec] at h2
        rcases List.mem_cons.mp h2 with rfl | h'
        · exact ⟨kd, List.mem_cons_self _ _, rd, hl, hdec, rfl⟩
        · obtain ⟨kd', hm, rest'⟩ := ih h'
          exact ⟨kd', List.mem_cons_of_mem _ hm, rest'⟩
      | skip =>
        rw [hdec] at h2
        obtain ⟨kd', hm, rest'⟩ := ih h2
        exact ⟨kd', List.mem_cons_of_mem _ hm, rest'⟩

theorem mem_del_ids (lm : List (Key × Doc)) (entries : List (Key × Doc))
    (i : String) (h : i ∈ del_ids lm entries) :
    ∃ kd ∈ entries, lookupKey lm kd.1 = none ∧ i = kd.2.id := by
  induction entries with
  | nil => cases h
  | cons kd rest ih =>
    rw [del_ids] at h
    by_cases hl : (lookupKey lm kd.1).isSome = true
    · rw [if_pos hl] at h
      obtain ⟨kd', hm, rest'⟩ := ih h
      exact ⟨kd', List.mem_cons_of_mem _ hm, rest'⟩
    · rw [if_neg hl] at h
      rcases List.mem_cons.mp h with rfl | h'
      · exact ⟨kd, List.mem_cons_self _ _, Option.not_isSome_iff_eq_none.mp hl,
          rfl⟩
      · obtain ⟨kd', hm, rest'⟩ := ih h'
        exact ⟨kd', List.mem_cons_of_mem _ hm, rest'⟩

theorem del_ids_of_mem (lm : List (Key × Doc)) (entries : List (Key × Doc))
    (kd : Key × Doc) (hm : kd ∈ entries) (hl : lookupKey lm kd.1 = none) :
    kd.2.id ∈ del_ids lm entries := by
  induction entries with
  | nil => cases hm
  | cons x rest ih =>
    rw [del_ids]
    rcases List.mem_cons.mp hm with rfl | hm'
    · rw [if_neg (by rw [hl]; simp)]
      exact List.mem_cons_self _ _
    · by_cases hx : (lookupKey lm x.1).isSome = true
      · rw [if_pos hx]
        exact ih hm'
      · rw [if_neg hx]
        exact List.mem_cons_of_mem _ (ih hm')

theorem mem_pushedDocs (env : SyncEnv) (rm : List (Key × Doc)) :
    ∀ (entries : List (Key × Doc)) (n : Nat) (d : Doc),
      d ∈ pushedDocs env rm n entries →
      ∃ m, ∃ kd ∈ entries, pushedCond rm kd = true ∧
        d = mkRemoteDoc (env.gen m) kd.2 := by
  intro entries
  induction entries with
  | nil => intro n d h; cases h
  | cons kd rest ih =>
    intro n d h
    rw [pushedDocs] at h
    by_cases hc : pushedCond rm kd = true
    · rw [if_pos hc] at h
      rcases List.mem_cons.mp h with rfl | h'
      · exact ⟨n, kd, List.mem_cons_self _ _, hc, rfl⟩
      · obtain ⟨m, kd', hm, hc', hd⟩ := ih (n + 1) d h'
        exact ⟨m, kd', List.mem_cons_of_mem _ hm, hc', hd⟩
    · rw [if_neg hc] at h
      obtain ⟨m, kd', hm, hc', hd⟩ := ih n d h
      exact ⟨m, kd', List.mem_cons_of_mem _ hm, hc', hd⟩

theorem pushedDocs_of_mem (env : SyncEnv) (rm : List (Key × Doc)) :
    ∀ (entries : List (Key × Doc)) (n : Nat) (kd : Key × Doc),
      kd ∈ entries → pushedCond rm kd = true →
      ∃ m, mkRemoteDoc (env.gen m) kd.2 ∈ pushedDocs env rm n entries := by
  intro entries
  induction entries with
  | nil => intro n kd h; cases h
  | cons x rest ih =>
    intro n kd hm hc
    rw [pushedDocs]
    rcases List.mem_cons.mp hm with rfl | hm'
    · rw [if_pos hc]
      exact ⟨n, List.mem_cons_self _ _⟩
    · by_cases hx : pushedCond rm x = true
      · rw [if_pos hx]
        obtain ⟨m, hmem⟩ := ih (n + 1) kd hm' hc
        exact ⟨m, List.mem_cons_of_mem _ hmem⟩
      · rw [if_neg hx]
        exact ih n kd hm' hc

theorem syncDecision_self (t : Option Int) :
    syncDecision t t = SyncAction.skip := by
  cases t with
  | none => rfl
  | some l => simp [syncDecision]

theorem phaseA_remote_char (env : SyncEnv) (rm : List (Key × Doc))
    (hok : ∀ n, env.httpOk n = true)
    (hrdid : ∀ p ∈ rm, p.2.id ≠ "")
    (hgen : ∀ n, ∀ p ∈ rm, env.gen n ≠ p.2.id) :
    ∀ (entries : List (Key × Doc)) (st : PushState),
      (∀ kd ∈ entries, kd.2.text ≠ "" ∧ kd.2.metadata ≠ []) →
      (entries.foldl (processLocalEntry env rm) st).remote =
        removeIdList st.remote (upd_ids rm entries) ++
          pushedDocs env rm st.fresh entries := by
  intro entries
  induction entries with
  | nil =>
    intro st _
    simp [upd_ids, removeIdList, pushedDocs]
  | cons kd rest ih =>
    intro st hval
    have hvr : ∀ x ∈ rest, x.2.text ≠ "" ∧ x.2.metadata ≠ [] :=
      fun x hx => hval x (List.mem_cons_of_mem _ hx)
    have hvk := hval kd (List.mem_cons_self _ _)
    rw [List.foldl_cons]
    cases hl : lookupKey rm kd.1 with
    | none =>
      have hstep : processLocalEntry env rm st kd =
          { st with
              remote := st.remote ++ [mkRemoteDoc (env.gen st.fresh) kd.2],
              added := st.added + 1, calls := st.calls + 1,
              fresh := st.fresh + 1 } := by
        simp only [processLocalEntry, hl, add_document, hok st.calls]
        simp [hvk.1, hvk.2]
      have hup : upd_ids rm (kd :: rest) = upd_ids rm rest := by
        simp [upd_ids, hl]
      have hc : pushedCond rm kd = true := by
        simp [pushedCond, hl]
      have hpd : pushedDocs env rm st.fresh (kd :: rest) =
          mkRemoteDoc (env.gen st.fresh) kd.2 ::
            pushedDocs env rm (st.fresh + 1) rest := by
        rw [pushedDocs, if_pos hc]
      rw [hstep, ih _ hvr]
      simp only [hup, hpd]
      rw [removeIdList_append_avoid (upd_ids rm rest) st.remote
        [mkRemoteDoc (env.gen st.fresh) kd.2] ?_]
      · simp
      · intro d hd i hi
        rw [List.mem_singleton.mp hd]
        obtain ⟨kd', hkd', rd', hlrd, hdec', rfl⟩ := mem_upd_ids rm rest i hi
        exact hgen st.fresh _ (lookupKey_mem rm kd'.1 rd' hlrd)
    | some rd =>
      cases hdec : syncDecision (get_timestamp kd.2) (get_timestamp rd) with
      | update =>
        have hstep : processLocalEntry env rm st kd =
            { st with
                remote := removeId st.remote rd.id ++
                  [mkRemoteDoc (env.gen st.fresh) kd.2],
                updated := st.updated + 1, calls := st.calls + 2,
                fresh := st.fresh + 1 } := by
          simp only [processLocalEntry, hl, hdec, delete_document,
            add_document, hok st.calls]
          simp [hrdid _ (lookupKey_mem rm kd.1 rd hl), hvk.1, hvk.2,
            hok (st.calls + 1)]
        have hup : upd_ids rm (kd :: rest) = rd.id :: upd_ids rm rest := by
          simp [upd_ids, hl, hdec]
        have hc : pushedCond rm kd = true := by
          simp [pushedCond, hl, hdec]
        have hpd : pushedDocs env rm st.fresh (kd :: rest) =
            mkRemoteDoc (env.gen st.fresh) kd.2 ::
              pushedDocs env rm (st.fresh + 1) rest := by
          rw [pushedDocs, if_pos hc]
        rw [hstep, ih _ hvr]
        simp only [hup, hpd]
        rw [removeIdList_append_avoid (upd_ids rm rest)
          (removeId st.remote rd.id)
          [mkRemoteDoc (env.gen st.fresh) kd.2] ?_]
        · simp [removeIdList]
        · intro d hd i hi
          rw [List.mem_singleton.mp hd]
          obtain ⟨kd', hkd', rd', hlrd, hdec', rfl⟩ := mem_upd_ids rm rest i hi
          exact hgen st.fresh _ (lookupKey_mem rm kd'.1 rd' hlrd)
      | skip =>
        have hstep : processLocalEntry env rm st kd =
            { st with skipped := st.skipped + 1 } := by
          simp only [processLocalEntry, hl, hdec]
        have hup : upd_ids rm (kd :: rest) = upd_ids rm rest := by
          simp [upd_ids, hl, hdec]
        have hc : pushedCond rm kd = false := by
          simp [pushedCond, hl, hdec]
        have hpd : pushedDocs env rm st.fresh (kd :: rest) =
            pushedDocs env rm st.fresh rest := by
          rw [pushedDocs, if_neg]
          rw [hc]
          exact Bool.false_ne_true
        rw [hstep, ih _ hvr]
        simp only [hup, hpd]

theorem phaseB_char (env : SyncEnv) (lm : List (Key × Doc))
    (hok : ∀ n, env.httpOk n = true) :
    ∀ (entries : List (Key × Doc)) (st : PushState),
      (∀ kd ∈ entries, kd.2.id ≠ "") →
      (entries.foldl (processRemoteEntry env lm) st).remote =
        removeIdList st.remote (del_ids lm entries) ∧
      (entries.foldl (processRemoteEntry env lm) st).deleted =
        st.deleted + (del_ids lm entries).length ∧
      (entries.foldl (processRemoteEntry env lm) st).added = st.added ∧
      (entries.foldl (processRemoteEntry env lm) st).updated = st.updated ∧
      (entries.foldl (processRemoteEntry env lm) st).failed = st.failed := by
  intro entries
  induction entries with
  | nil =>
    intro st _
    simp [del_ids, removeIdList]
  | cons kd rest ih =>
    intro st hids
    have hir : ∀ x ∈ rest, x.2.id ≠ "" :=
      fun x hx => hids x (List.mem_cons_of_mem _ hx)
    rw [List.foldl_cons]
    by_cases hl : (lookupKey lm kd.1).isSome = true
    · have hstep : processRemoteEntry env lm st kd = st := by
        simp only [processRemoteEntry, hl, if_true]
      have hdl : del_ids lm (kd :: rest) = del_ids lm rest := by
        rw [del_ids, if_pos hl]
      rw [hstep, hdl]
      exact ih st hir
    · have hstep : processRemoteEntry env lm st kd =
          { st with
              remote := removeId st.remote kd.2.id,
              deleted := st.deleted + 1, calls := st.calls + 1 } := by
        simp only [processRemoteEntry, hl, if_false, delete_document,
          hok st.calls]
        simp [hids kd (List.mem_cons_self _ _)]
      have hdl : del_ids lm (kd :: rest) = kd.2.id :: del_ids lm rest := by
        rw [del_ids, if_neg hl]
      rw [hstep, hdl]
      obtain ⟨h1, h2, h3, h4, h5⟩ := ih _ hir
      refine ⟨?_, ?_, ?_, ?_, ?_⟩
      · rw [h1]
        rfl
      · rw [h2]
        simp only [List.length_cons]
        omega
      · rw [h3]
      · rw [h4]
      · rw [h5]

theorem phaseA_all_skip (env : SyncEnv) (rm : List (Key × Doc)) :
    ∀ (entries : List (Key × Doc)) (st : PushState),
      (∀ kd ∈ entries, ∃ rd, lookupKey rm kd.1 = some rd ∧
        syncDecision (get_timestamp kd.2) (get_timestamp rd) =
          SyncAction.skip) →
      (entries.foldl (processLocalEntry env rm) st).added = st.added ∧
      (entries.foldl (processLocalEntry env rm) st).updated = st.updated ∧
      (entries.foldl (processLocalEntry env rm) st).deleted = st.deleted ∧
      (entries.foldl (processLocalEntry env rm) st).failed = st.failed ∧
      (entries.foldl (processLocalEntry env rm) st).remote = st.remote := by
  intro entries
  induction entries with
  | nil =>
    intro st _
    exact ⟨rfl, rfl, rfl, rfl, rfl⟩
  | cons kd rest ih =>
    intro st hskip
    obtain ⟨rd, hl, hdec⟩ := hskip kd (List.mem_cons_self _ _)
    have hstep : processLocalEntry env rm st kd =
        { st with skipped := st.skipped + 1 } := by
      simp only [processLocalEntry, hl, hdec]
    rw [List.foldl_cons, hstep]
    exact ih _ (fun x hx => hskip x (List.mem_cons_of_mem _ hx))

theorem phaseB_no_deletes (env : SyncEnv) (lm : List (Key × Doc)) :
    ∀ (entries : List (Key × Doc)) (st : PushState),
      (∀ kd ∈ entries, (lookupKey lm kd.1).isSome = true) →
      entries.foldl (processRemoteEntry env lm) st = st := by
  intro entries
  induction entries with
  | nil => intro st _; rfl
  | cons kd rest ih =>
    intro st hall
    have hstep : processRemoteEntry env lm st kd = st := by
      simp only [processRemoteEntry, hall kd (List.mem_cons_self _ _), if_true]
    rw [List.foldl_cons, hstep]
    exact ih st (fun x hx => hall x (List.mem_cons_of_mem _ hx))

/-- C10 counterexample: with two remote documents sharing one composite key
(two chunks of `a.pdf`, as `process_pdf.py` produces) and an empty local
listing, the run issues a delete only for the map's one entry per key — the
remote store is not wiped (one document survives) and fewer deletes than
documents are issued. -/
theorem C10_counterexample :
    (push_to_remote envOK [] [chunk1, chunk2]).remote ≠ [] ∧
    (push_to_remote envOK [] [chunk1, chunk2]).deleted ≠
      [chunk1, chunk2].length := by
  decide

/-- C10 as amended: a successfully-listed empty local store does not abort
the run; the deletion phase issues one delete per entry of the remote key
map, so when the remote listing's composite keys are pairwise distinct (and
ids are non-empty and all calls succeed) every remote document is deleted
and the remote store is wiped with no failures. -/
theorem C10_amended_empty_local_deletes_per_key (env : SyncEnv)
    (R : List Doc)
    (hok : ∀ n, env.httpOk n = true)
    (hids : ∀ d ∈ R, d.id ≠ "")
    (hkeys : (R.map docKey).Nodup) :
    syncRun env (some []) true R =
      SyncOutcome.completed (push_to_remote env [] R) ∧
    (push_to_remote env [] R).remote = [] ∧
    (push_to_remote env [] R).deleted = R.length ∧
    (push_to_remote env [] R).failed = 0 := by
  have hids' : ∀ kd ∈ buildMap R, kd.2.id ≠ "" :=
    fun kd hk => hids kd.2 (mem_buildMap R kd hk).1
  have hdel : ∀ entries : List (Key × Doc),
      del_ids ([] : List (Key × Doc)) entries =
        entries.map (fun kd => kd.2.id) := by
    intro entries
    induction entries with
    | nil => rfl
    | cons kd rest ih =>
      rw [del_ids, if_neg (by simp [lookupKey]), ih]
      rfl
  obtain ⟨h1, h2, h3, h4, h5⟩ := phaseB_char env (buildMap []) hok
    (buildMap R) (initState R) hids'
  have hbm0 : buildMap ([] : List Doc) = ([] : List (Key × Doc)) := rfl
  rw [hbm0] at h1 h2 h5
  have hpush : push_to_remote env [] R =
      (buildMap R).foldl (processRemoteEntry env (buildMap []))
        (initState R) := rfl
  refine ⟨rfl, ?_, ?_, ?_⟩
  · rw [hpush, hbm0, h1, hdel]
    apply removeIdList_eq_nil
    intro d hd
    refine ⟨d.id, ?_, rfl⟩
    rw [buildMap_eq_map R hkeys, List.map_map]
    exact List.mem_map.mpr ⟨d, hd, rfl⟩
  · rw [hpush, hbm0, h2, hdel, List.length_map, buildMap_eq_map R hkeys,
      List.length_map]
    simp [initState]
  · rw [hpush, hbm0, h5]
    rfl

/-- Closed instance of `C10_amended_empty_local_deletes_per_key` for a
one-document remote store. -/
theorem C10_amended_empty_local_deletes_per_key_witness :
    syncRun envOK (some []) true [chunk1] =
      SyncOutcome.completed (push_to_remote envOK [] [chunk1]) ∧
    (push_to_remote envOK [] [chunk1]).remote = [] ∧
    (push_to_remote envOK [] [chunk1]).deleted = [chunk1].length ∧
    (push_to_remote envOK [] [chunk1]).failed = 0 :=
  C10_amended_empty_local_deletes_per_key envOK [chunk1] (fun _ => rfl)
    (by decide) (by decide)

/-- C4 counterexample: a local-only document without a `verified` flag is
pushed by a fully successful run, yet no remote document carries its exact
metadata — the remote `/add` endpoint stored the copy with `verified = True`
appended. -/
theorem C4_counterexample :
    (push_to_remote envOK [plainLocalDoc] []).failed = 0 ∧
    ¬ ∃ d ∈ (push_to_remote envOK [plainLocalDoc] []).remote,
        docKey d = docKey plainLocalDoc ∧ d.text = plainLocalDoc.text ∧
        d.metadata = plainLocalDoc.metadata := by
  decide

/-- C4 as amended: after one fully successful push, every composite key
present only in the local store exists remotely with identical text and with
the local metadata extended/overwritten by `verified = True` (identical
metadata up to that forced flag; list values would additionally be
`"; "`-joined). -/
theorem C4_amended_local_only_pushed (env : SyncEnv) (L R : List Doc)
    (ld : Doc)
    (hok : ∀ n, env.httpOk n = true)
    (hgen : ∀ n, ∀ d ∈ R, env.gen n ≠ d.id)
    (hRids : ∀ d ∈ R, d.id ≠ "")
    (hLkeys : (L.map docKey).Nodup)
    (hvalid : ∀ d ∈ L, d.text ≠ "" ∧ d.metadata ≠ [])
    (hld : ld ∈ L)
    (honly : ∀ rd ∈ R, docKey rd ≠ docKey ld)
    (hnolist : ∀ p ∈ ld.metadata, ∀ vs, p.2 ≠ MVal.lst vs) :
    ∃ d ∈ (push_to_remote env L R).remote,
      docKey d = docKey ld ∧ d.text = ld.text ∧
      d.metadata = mdSet ld.metadata "verified" (MVal.b true) := by
  have hrdid : ∀ p ∈ buildMap R, p.2.id ≠ "" :=
    fun p hp => hRids p.2 (mem_buildMap R p hp).1
  have hgen' : ∀ n, ∀ p ∈ buildMap R, env.gen n ≠ p.2.id :=
    fun n p hp => hgen n p.2 (mem_buildMap R p hp).1
  have hval' : ∀ kd ∈ buildMap L, kd.2.text ≠ "" ∧ kd.2.metadata ≠ [] :=
    fun kd hk => hvalid kd.2 (mem_buildMap L kd hk).1
  have hA := phaseA_remote_char env (buildMap R) hok hrdid hgen'
    (buildMap L) (initState R) hval'
  have hmemLM : (docKey ld, ld) ∈ buildMap L := by
    rw [buildMap_eq_map L hLkeys]
    exact List.mem_map.mpr ⟨ld, hld, rfl⟩
  have hlook : lookupKey (buildMap R) (docKey ld) = none := by
    rw [lookupKey_buildMap]
    exact (lastWithKey_none_iff R (docKey ld)).mpr honly
  have hcond : pushedCond (buildMap R) (docKey ld, ld) = true := by
    simp [pushedCond, hlook]
  obtain ⟨m, hmem⟩ := pushedDocs_of_mem env (buildMap R) (buildMap L)
    (initState R).fresh (docKey ld, ld) hmemLM hcond
  have hB := phaseB_char env (buildMap L) hok (buildMap R)
    ((buildMap L).foldl (processLocalEntry env (buildMap R)) (initState R))
    hrdid
  have hpush : push_to_remote env L R =
      (buildMap R).foldl (processRemoteEntry env (buildMap L))
        ((buildMap L).foldl (processLocalEntry env (buildMap R))
          (initState R)) := rfl
  refine ⟨mkRemoteDoc (env.gen m) ld, ?_, ?_, rfl, ?_⟩
  · rw [hpush, hB.1]
    rw [mem_removeIdList]
    constructor
    · rw [hA]
      exact List.mem_append_right _ hmem
    · intro i hi
      obtain ⟨kd, hkd, _, rfl⟩ := mem_del_ids (buildMap L) (buildMap R) i hi
      exact hgen m kd.2 (mem_buildMap R kd hkd).1
  · exact docKey_mkRemoteDoc _ ld hnolist
  · show addProcess ld.metadata = _
    unfold addProcess
    rw [processMetadata_eq_self ld.metadata hnolist]

/-- Closed instance of `C4_amended_local_only_pushed`: pushing
`plainLocalDoc` into an empty remote store yields a remote copy with the
same key and text and with `verified = True` added. -/
theorem C4_amended_local_only_pushed_witness :
    ∃ d ∈ (push_to_remote envOK [plainLocalDoc] []).remote,
      docKey d = docKey plainLocalDoc ∧ d.text = plainLocalDoc.text ∧
      d.metadata = mdSet plainLocalDoc.metadata "verified" (MVal.b true) :=
  C4_amended_local_only_pushed envOK [plainLocalDoc] [] plainLocalDoc
    (fun _ => rfl)
    (fun n d hd => absurd hd (List.not_mem_nil d))
    (fun d hd => absurd hd (List.not_mem_nil d))
    (by decide) (by decide) (List.mem_cons_self _ _)
    (fun rd hrd => absurd hrd (List.not_mem_nil rd))
    (by
      intro p hp vs
      rw [List.mem_singleton.mp hp]
      simp)

/-- C6 counterexample: with two remote documents sharing one composite key
and an empty (unchanged) local store, the first run deletes only the map's
representative; the second run, with no intervening local change, deletes
again — `deleted ≠ 0` on the second run. -/
theorem C6_counterexample :
    (push_to_remote envOK [] [chunk1, chunk2]).failed = 0 ∧
    ¬ ((push_to_remote envOK []
          (push_to_remote envOK [] [chunk1, chunk2]).remote).added = 0 ∧
       (push_to_remote envOK []
          (push_to_remote envOK [] [chunk1, chunk2]).remote).updated = 0 ∧
       (push_to_remote envOK []
          (push_to_remote envOK [] [chunk1, chunk2]).remote).deleted = 0) := by
  decide

theorem pushedCond_false_elim (rm : List (Key × Doc)) (kd : Key × Doc)
    (h : pushedCond rm kd = false) :
    ∃ rd, lookupKey rm kd.1 = some rd ∧
      syncDecision (get_timestamp kd.2) (get_timestamp rd) =
        SyncAction.skip := by
  unfold pushedCond at h
  cases hl : lookupKey rm kd.1 with
  | none =>
    rw [hl] at h
    cases h
  | some rd =>
    rw [hl] at h
    have h2 : (match syncDecision (get_timestamp kd.2) (get_timestamp rd) with
        | SyncAction.update => true
        | SyncAction.skip => false) = false := h
    cases hdec : syncDecision (get_timestamp kd.2) (get_timestamp rd) with
    | update =>
      rw [hdec] at h2
      cases h2
    | skip => exact ⟨rd, rfl, hdec⟩

/-- C6 as amended: when the remote listing has pairwise-distinct composite
keys and ids, ids are non-empty, fresh ids do not collide with remote ids,
local documents are addable, and every remote call succeeds, a second push
reconciliation with no intervening local change yields
`added = updated = deleted = 0`. -/
theorem C6_amended_idempotent_second_run (env1 env2 : SyncEnv)
    (L R : List Doc)
    (hok1 : ∀ n, env1.httpOk n = true)
    (hRkeys : (R.map docKey).Nodup)
    (hRids : (R.map Doc.id).Nodup)
    (hRidne : ∀ d ∈ R, d.id ≠ "")
    (hgen : ∀ n, ∀ d ∈ R, env1.gen n ≠ d.id)
    (hLvalid : ∀ d ∈ L, d.text ≠ "" ∧ d.metadata ≠ [])
    (hLnolist : ∀ d ∈ L, ∀ p ∈ d.metadata, ∀ vs, p.2 ≠ MVal.lst vs) :
    (push_to_remote env2 L (push_to_remote env1 L R).remote).added = 0 ∧
    (push_to_remote env2 L (push_to_remote env1 L R).remote).updated = 0 ∧
    (push_to_remote env2 L (push_to_remote env1 L R).remote).deleted = 0 := by
  have hrdid : ∀ p ∈ buildMap R, p.2.id ≠ "" :=
    fun p hp => hRidne p.2 (mem_buildMap R p hp).1
  have hgen' : ∀ n, ∀ p ∈ buildMap R, env1.gen n ≠ p.2.id :=
    fun n p hp => hgen n p.2 (mem_buildMap R p hp).1
  have hval' : ∀ kd ∈ buildMap L, kd.2.text ≠ "" ∧ kd.2.metadata ≠ [] :=
    fun kd hk => hLvalid kd.2 (mem_buildMap L kd hk).1
  have hkeyinj : ∀ a ∈ R, ∀ b ∈ R, docKey a = docKey b → a = b :=
    fun a ha b hb hab => List.inj_on_of_nodup_map hRkeys ha hb hab
  have hidinj : ∀ a ∈ R, ∀ b ∈ R, a.id = b.id → a = b :=
    fun a ha b hb hab => List.inj_on_of_nodup_map hRids ha hb hab
  have hLMnodup := buildMap_keys_nodup L
  have hA := phaseA_remote_char env1 (buildMap R) hok1 hrdid hgen'
    (buildMap L) (initState R) hval'
  have hB := (phaseB_char env1 (buildMap L) hok1 (buildMap R)
    ((buildMap L).foldl (processLocalEntry env1 (buildMap R)) (initState R))
    hrdid).1
  have havoid : ∀ d ∈ pushedDocs env1 (buildMap R) (initState R).fresh
      (buildMap L),
      ∀ i ∈ del_ids (buildMap L) (buildMap R), d.id ≠ i := by
    intro d hd i hi
    obtain ⟨m, kd0, hkd0, hc0, rfl⟩ :=
      mem_pushedDocs env1 (buildMap R) (buildMap L) _ d hd
    obtain ⟨kd1, hkd1, hln, rfl⟩ := mem_del_ids (buildMap L) (buildMap R) i hi
    exact hgen m kd1.2 (mem_buildMap R kd1 hkd1).1
  have hR1 : (push_to_remote env1 L R).remote =
      removeIdList (removeIdList R (upd_ids (buildMap R) (buildMap L)))
        (del_ids (buildMap L) (buildMap R)) ++
      pushedDocs env1 (buildMap R) 0 (buildMap L) := by
    show ((buildMap R).foldl (processRemoteEntry env1 (buildMap L))
        ((buildMap L).foldl (processLocalEntry env1 (buildMap R))
          (initState R))).remote = _
    rw [hB, hA, removeIdList_append_avoid _ _ _ havoid]
    rfl
  have hKB : ∀ kd ∈ buildMap L, ∃ rd2,
      lastWithKey ((push_to_remote env1 L R).remote) kd.1 = some rd2 ∧
      syncDecision (get_timestamp kd.2) (get_timestamp rd2) =
        SyncAction.skip := by
    intro kd hkd
    have hkdL : kd.2 ∈ L := (mem_buildMap L kd hkd).1
    have hkdkey : docKey kd.2 = kd.1 := (mem_buildMap L kd hkd).2
    rw [hR1, lastWithKey_append]
    cases hc : pushedCond (buildMap R) kd with
    | true =>
      obtain ⟨m, hmem⟩ :=
        pushedDocs_of_mem env1 (buildMap R) (buildMap L) 0 kd hkd hc
      cases hP : lastWithKey (pushedDocs env1 (buildMap R) 0 (buildMap L))
          kd.1 with
      | none =>
        exfalso
        apply (lastWithKey_none_iff _ _).mp hP
          (mkRemoteDoc (env1.gen m) kd.2) hmem
        rw [docKey_mkRemoteDoc _ _ (hLnolist kd.2 hkdL), hkdkey]
      | some d0 =>
        obtain ⟨hd0P, hd0key⟩ := lastWithKey_mem _ _ _ hP
        obtain ⟨m0, kd0, hkd0, hc0, rfl⟩ :=
          mem_pushedDocs env1 (buildMap R) (buildMap L) 0 _ hd0P
        have hkd0L : kd0.2 ∈ L := (mem_buildMap L kd0 hkd0).1
        have hk01 : kd0.1 = kd.1 := by
          rw [← (mem_buildMap L kd0 hkd0).2, ← hd0key,
            docKey_mkRemoteDoc _ _ (hLnolist kd0.2 hkd0L)]
        have hkd02 : kd0.2 = kd.2 := by
          apply entry_unique_of_keys_nodup (buildMap L) hLMnodup kd.1
          · have hkd0' : kd0 = (kd.1, kd0.2) := by
              rw [← hk01]
            rw [← hkd0']
            exact hkd0
          · have hkd' : kd = (kd.1, kd.2) := rfl
            rw [← hkd']
            exact hkd
        refine ⟨mkRemoteDoc (env1.gen m0) kd0.2, rfl, ?_⟩
        rw [get_timestamp_mkRemoteDoc _ _ (hLnolist kd0.2 hkd0L), hkd02]
        exact syncDecision_self _
    | false =>
      obtain ⟨rd, hlrd, hdec⟩ := pushedCond_false_elim (buildMap R) kd hc
      have hlwkR : lastWithKey R kd.1 = some rd := by
        rw [← lookupKey_buildMap]
        exact hlrd
      obtain ⟨hrdR, hrdkey⟩ := lastWithKey_mem _ _ _ hlwkR
      have hPnone : lastWithKey
          (pushedDocs env1 (buildMap R) 0 (buildMap L)) kd.1 = none := by
        rw [lastWithKey_none_iff]
        intro d hd
        obtain ⟨m0, kd0, hkd0, hc0, rfl⟩ :=
          mem_pushedDocs env1 (buildMap R) (buildMap L) 0 d hd
        have hkd0L : kd0.2 ∈ L := (mem_buildMap L kd0 hkd0).1
        rw [docKey_mkRemoteDoc _ _ (hLnolist kd0.2 hkd0L),
          (mem_buildMap L kd0 hkd0).2]
        intro hk01
        have hkd02 : kd0.2 = kd.2 := by
          apply entry_unique_of_keys_nodup (buildMap L) hLMnodup kd.1
          · have hkd0' : kd0 = (kd.1, kd0.2) := by
              rw [← hk01]
            rw [← hkd0']
            exact hkd0
          · have hkd' : kd = (kd.1, kd.2) := rfl
            rw [← hkd']
            exact hkd
        have hkd0eq : kd0 = kd := Prod.ext hk01 hkd02
        rw [hkd0eq, hc] at hc0
        cases hc0
      rw [hPnone]
      refine ⟨rd, ?_, hdec⟩
      show lastWithKey (removeIdList
        (removeIdList R (upd_ids (buildMap R) (buildMap L)))
        (del_ids (buildMap L) (buildMap R))) kd.1 = some rd
      apply lastWithKey_unique _ _ rd ?_ hrdkey
      · intro x hx hxk
        have hxR : x ∈ R :=
          ((mem_removeIdList _ _ _).mp
            ((mem_removeIdList _ _ _).mp hx).1).1
        exact hkeyinj x hxR rd hrdR (by rw [hxk, hrdkey])
      · rw [mem_removeIdList, mem_removeIdList]
        refine ⟨⟨hrdR, ?_⟩, ?_⟩
        · intro i hi
          obtain ⟨kd', hkd', rd', hlrd', hdec', rfl⟩ :=
            mem_upd_ids (buildMap R) (buildMap L) i hi
          intro hideq
          have hlwk' : lastWithKey R kd'.1 = some rd' := by
            rw [← lookupKey_buildMap]
            exact hlrd'
          obtain ⟨hrd'R, hrd'key⟩ := lastWithKey_mem _ _ _ hlwk'
          have hrdeq : rd = rd' := hidinj rd hrdR rd' hrd'R hideq
          have hk'1 : kd'.1 = kd.1 := by
            rw [← hrd'key, ← hrdeq, hrdkey]
          have hkd'2 : kd'.2 = kd.2 := by
            apply entry_unique_of_keys_nodup (buildMap L) hLMnodup kd.1
            · have h' : kd' = (kd.1, kd'.2) := by
                rw [← hk'1]
              rw [← h']
              exact hkd'
            · have h' : kd = (kd.1, kd.2) := rfl
              rw [← h']
              exact hkd
          rw [hkd'2, ← hrdeq] at hdec'
          rw [hdec'] at hdec
          cases hdec
        · intro i hi
          obtain ⟨kd'', hkd'', hln'', rfl⟩ :=
            mem_del_ids (buildMap L) (buildMap R) i hi
          intro hideq
          have hkd''R : kd''.2 ∈ R := (mem_buildMap R kd'' hkd'').1
          have hrdeq : rd = kd''.2 := hidinj rd hrdR kd''.2 hkd''R hideq
          have hk''1 : kd''.1 = kd.1 := by
            rw [← (mem_buildMap R kd'' hkd'').2, ← hrdeq, hrdkey]
          rw [hk''1] at hln''
          have : (lookupKey (buildMap L) kd.1).isSome = true := by
            rw [lookupKey_isSome_iff]
            exact ⟨kd, hkd, rfl⟩
          rw [hln''] at this
          cases this
  have hallskip : ∀ kd ∈ buildMap L, ∃ rd2,
      lookupKey (buildMap ((push_to_remote env1 L R).remote)) kd.1 =
        some rd2 ∧
      syncDecision (get_timestamp kd.2) (get_timestamp rd2) =
        SyncAction.skip := by
    intro kd hkd
    obtain ⟨rd2, h1, h2⟩ := hKB kd hkd
    refine ⟨rd2, ?_, h2⟩
    rw [lookupKey_buildMap]
    exact h1
  have hA2 := phaseA_all_skip env2
    (buildMap ((push_to_remote env1 L R).remote)) (buildMap L)
    (initState ((push_to_remote env1 L R).remote)) hallskip
  have hB2cond : ∀ kd2 ∈ buildMap ((push_to_remote env1 L R).remote),
      (lookupKey (buildMap L) kd2.1).isSome = true := by
    intro kd2 hkd2
    obtain ⟨hmem, hkey⟩ := mem_buildMap _ kd2 hkd2
    rw [hR1] at hmem
    rcases List.mem_append.mp hmem with hS | hP
    · obtain ⟨hSU, hdD⟩ := (mem_removeIdList _ _ _).mp hS
      obtain ⟨hdR, hdU⟩ := (mem_removeIdList _ _ _).mp hSU
      by_cases hlk : (lookupKey (buildMap L) kd2.1).isSome = true
      · exact hlk
      · exfalso
        have hnone : lookupKey (buildMap L) kd2.1 = none := by
          cases hx : lookupKey (buildMap L) kd2.1 with
          | none => rfl
          | some v =>
            rw [hx] at hlk
            exact absurd rfl hlk
        have hlwk : lastWithKey R kd2.1 = some kd2.2 :=
          lastWithKey_unique R kd2.1 kd2.2 hdR hkey
            (fun x hx hxk => hkeyinj x hx kd2.2 hdR (by rw [hxk, hkey]))
        have hmemRM : (kd2.1, kd2.2) ∈ buildMap R :=
          lookupKey_mem _ _ _ (by rw [lookupKey_buildMap]; exact hlwk)
        have hdid : kd2.2.id ∈ del_ids (buildMap L) (buildMap R) :=
          del_ids_of_mem (buildMap L) (buildMap R) (kd2.1, kd2.2) hmemRM
            hnone
        exact (hdD kd2.2.id hdid) rfl
    · obtain ⟨m0, kd0, hkd0, hc0, hdq⟩ :=
        mem_pushedDocs env1 (buildMap R) (buildMap L) 0 kd2.2 hP
      rw [lookupKey_isSome_iff]
      refine ⟨kd0, hkd0, ?_⟩
      rw [← hkey, hdq,
        docKey_mkRemoteDoc _ _ (hLnolist kd0.2 (mem_buildMap L kd0 hkd0).1),
        (mem_buildMap L kd0 hkd0).2]
  have hB2 := phaseB_no_deletes env2 (buildMap L)
    (buildMap ((push_to_remote env1 L R).remote))
    ((buildMap L).foldl
      (processLocalEntry env2 (buildMap ((push_to_remote env1 L R).remote)))
      (initState ((push_to_remote env1 L R).remote))) hB2cond
  have hfinal : push_to_remote env2 L ((push_to_remote env1 L R).remote) =
      (buildMap L).foldl
        (processLocalEntry env2
          (buildMap ((push_to_remote env1 L R).remote)))
        (initState ((push_to_remote env1 L R).remote)) := hB2
  rw [hfinal]
  exact ⟨hA2.1, hA2.2.1, hA2.2.2.1⟩

/-- Closed instance of `C6_amended_idempotent_second_run`: pushing one local
document into an empty remote twice yields zero adds/updates/deletes on the
second run. -/
theorem C6_amended_idempotent_second_run_witness :
    (push_to_remote envOK [plainLocalDoc]
        (push_to_remote envOK [plainLocalDoc] []).remote).added = 0 ∧
    (push_to_remote envOK [plainLocalDoc]
        (push_to_remote envOK [plainLocalDoc] []).remote).updated = 0 ∧
    (push_to_remote envOK [plainLocalDoc]
        (push_to_remote envOK [plainLocalDoc] []).remote).deleted = 0 :=
  C6_amended_idempotent_second_run envOK envOK [plainLocalDoc] []
    (fun _ => rfl) List.nodup_nil List.nodup_nil
    (fun d hd => absurd hd (List.not_mem_nil d))
    (fun n d hd => absurd hd (List.not_mem_nil d))
    (by decide)
    (by
      intro d hd p hp vs
      rw [List.mem_singleton.mp hd] at hp
      rw [List.mem_singleton.mp hp]
      simp)
